import Mathlib

/-!
Verification development for the Klaviyo connector core
(`sources/klaviyo-source` together with `faros-airbyte-cdk`).

The development shallowly embeds the parts of the TypeScript source that the
checked claims are about:

* `momentRanges` — the time-range shard planner
  (`streams/klaviyo.ts`, newest revision);
* `withRetry` — the exponential-backoff retrying invoker of the Klaviyo
  client (`klaviyo.ts`);
* `parallelSequentialRead` — the parallel-producer / sequential-consumer
  orchestrator with cross-shard dedup (`streams/klaviyo.ts`, newest
  revision), both as a pure dedup pipeline and as a run model with
  producer failure, cooperative abort and the end-of-spool race;
* the spool reader of `FileBufferedProcessor.process` — chunked reads
  split on newlines with a carried partial line;
* `AirbyteSourceBase.read` — the per-stream failure budget;
* `AirbyteSourceBase.doReadStream` — record/checkpoint interleaving,
  slice failure handling and backfill behaviour, composed with the
  Events stream's `getUpdatedState` (cutoff = max of cursor epochs).

Moments and durations are modelled as integer epoch milliseconds; records
are modelled by the two fields the orchestrator inspects (primary key and
cursor value).  JavaScript `undefined` is modelled by `Option`.
-/

/-! ## Shard planner: `momentRanges`

TypeScript source (streams/klaviyo.ts):
```
for (let d = moment.utc(from.clone()); d.isBefore(to); ) {
  const a = d.clone();
  const b = d.add(step).clone();
  ranges.push({
    from: isFirst ? a.subtract(startOverlap) : a.subtract(stepOverlap),
    to: b.add(stepOverlap),
  });
  isFirst = false;
}
```
`d.add(step)` mutates `d`, so each iteration advances `d` by `step`,
`a` is the pre-advance value and `b` the post-advance value.
The guard `0 < s` keeps the Lean function total; the source loop does not
terminate for a non-positive step, and every claim about it assumes a
positive step. -/

def momentRangesLoop (t s stepO startO : Int) (d : Int) (fi : Bool) :
    List (Int × Int) :=
  if _h : 0 < s ∧ d < t then
    (d - (if fi then startO else stepO), d + s + stepO) ::
      momentRangesLoop t s stepO startO (d + s) false
  else []
termination_by (t - d).toNat
decreasing_by
  simp_wf
  omega

/-- `momentRanges({from, to, step, stepOverlap, startOverlap})`. -/
def momentRanges (f t s stepO startO : Int) : List (Int × Int) :=
  momentRangesLoop t s stepO startO f true

lemma momentRangesLoop_get (t s stepO startO : Int) (hs : 0 < s) :
    ∀ (k : Nat) (d : Int) (fi : Bool),
      (momentRangesLoop t s stepO startO d fi)[k]? =
        if d + k * s < t then
          some (d + k * s - (if fi = true ∧ k = 0 then startO else stepO),
                d + k * s + s + stepO)
        else none := by
  intro k
  induction k with
  | zero =>
    intro d fi
    rw [momentRangesLoop]
    by_cases hd : d < t
    · simp [hs, hd]
    · simp [hs, hd]
  | succ k ih =>
    intro d fi
    rw [momentRangesLoop]
    by_cases hd : d < t
    · have hmul : d + (↑(k + 1) : Int) * s = d + s + (k : Int) * s := by
        push_cast
        ring
      simp only [hs, hd, and_self, dite_true, List.getElem?_cons_succ, ih (d + s) false]
      rw [hmul]
      simp
    · have hk : ¬ d + ((k : Int) + 1) * s < t := by
        have h1 : (0 : Int) < ((k : Int) + 1) * s := by
          apply mul_pos _ hs
          positivity
        omega
      simp [hs, hd, hk]

/-- C4: for a positive step, `momentRanges` returns exactly the ranges
`[a_k − overlap_k, a_k + step + stepOverlap)` with `a_k = from + k·step`,
`overlap_0 = startOverlap`, `overlap_k = stepOverlap` for `k ≥ 1`, one
range for every `k` with `a_k < to` (hence empty when `from ≥ to`). -/
theorem momentRanges_spec (f t s stepO startO : Int) (hs : 0 < s) (k : Nat) :
    (momentRanges f t s stepO startO)[k]? =
      if f + k * s < t then
        some (f + k * s - (if k = 0 then startO else stepO),
              f + k * s + s + stepO)
      else none := by
  rw [momentRanges, momentRangesLoop_get t s stepO startO hs k f true]
  simp

/-- C4 witness: the spec theorem evaluated at `from = 0`, `to = 2`,
`step = 1`, `stepOverlap = 0`, `startOverlap = 0`, index `0`. -/
theorem momentRanges_spec_witness :
    (0 : Int) < 1 ∧
      (momentRanges 0 2 1 0 0)[0]? =
        if (0 : Int) + (0 : Nat) * 1 < 2 then
          some ((0 : Int) + (0 : Nat) * 1 - (if (0 : Nat) = 0 then 0 else 0),
                (0 : Int) + (0 : Nat) * 1 + 1 + 0)
        else none :=
  ⟨by decide, momentRanges_spec 0 2 1 0 0 (by decide) 0⟩

/-! ## Retrying invoker: `Klaviyo.withRetry`

TypeScript source (klaviyo.ts):
```
async withRetry<T>(fn: () => Promise<T>) {
  return backOff(fn, {
    maxDelay: 2 * 60 * 1000,
    numOfAttempts: 100,
    startingDelay: 30 * 1000,
    timeMultiple: 2,
    retry(e: AxiosError) {
      return e.response?.status !== 400;
    },
  });
}
```
The `exponential-backoff` library attempts `fn` up to `numOfAttempts`
times; after the `n`-th failed attempt (`n` counted from 0) it consults
the retry predicate and, if retrying, sleeps
`min(maxDelay, startingDelay · timeMultiple^n)` milliseconds.  The model
represents `fn` as a function from the attempt index to an outcome and
returns the final outcome together with the list of sleep delays. -/

/-- The error shape the retry predicate inspects: `e.response?.status`. -/
structure AxiosErr where
  status : Option Nat
deriving DecidableEq, Repr

/-- The source's retry predicate: `e.response?.status !== 400`. -/
def klaviyoRetryPred (e : AxiosErr) : Bool :=
  e.status != some 400

/-- The delay slept after the `n`-th failed attempt (`n` from 0). -/
def backOffDelay (startingDelay timeMultiple maxDelay n : Nat) : Nat :=
  min maxDelay (startingDelay * timeMultiple ^ n)

/-- The backoff loop: `left` retries remaining, `n` the current attempt
index.  Returns the final outcome and the list of delays slept. -/
def backOffGo {T : Type} (retry : AxiosErr → Bool)
    (startingDelay timeMultiple maxDelay : Nat)
    (fn : Nat → Except AxiosErr T) :
    Nat → Nat → Except AxiosErr T × List Nat
  | left, n =>
    match fn n with
    | .ok v => (.ok v, [])
    | .error e =>
      match left with
      | 0 => (.error e, [])
      | left' + 1 =>
        if retry e then
          let r := backOffGo retry startingDelay timeMultiple maxDelay fn left' (n + 1)
          (r.1, backOffDelay startingDelay timeMultiple maxDelay n :: r.2)
        else (.error e, [])

/-- `withRetry` with the source's profile: start 30 s, multiplier 2,
cap 120 s, at most 100 attempts (99 retries). -/
def withRetry {T : Type} (fn : Nat → Except AxiosErr T) :
    Except AxiosErr T × List Nat :=
  backOffGo klaviyoRetryPred (30 * 1000) 2 (2 * 60 * 1000) fn 99 0

lemma backOffGo_eq_ok {T : Type} (retry : AxiosErr → Bool) (sd tm md : Nat)
    (fn : Nat → Except AxiosErr T) (left n : Nat) (v : T) (h : fn n = .ok v) :
    backOffGo retry sd tm md fn left n = (.ok v, []) := by
  rw [backOffGo, h]

lemma backOffGo_eq_stop {T : Type} (retry : AxiosErr → Bool) (sd tm md : Nat)
    (fn : Nat → Except AxiosErr T) (left n : Nat) (e : AxiosErr)
    (h : fn n = .error e) (hr : retry e = false) :
    backOffGo retry sd tm md fn (left + 1) n = (.error e, []) := by
  rw [backOffGo, h]
  simp [hr]

lemma backOffGo_eq_cont {T : Type} (retry : AxiosErr → Bool) (sd tm md : Nat)
    (fn : Nat → Except AxiosErr T) (left n : Nat) (e : AxiosErr)
    (h : fn n = .error e) (hr : retry e = true) :
    backOffGo retry sd tm md fn (left + 1) n =
      ((backOffGo retry sd tm md fn left (n + 1)).1,
        backOffDelay sd tm md n :: (backOffGo retry sd tm md fn left (n + 1)).2) := by
  rw [backOffGo, h]
  simp [hr]

lemma backOffGo_delays {T : Type} (retry : AxiosErr → Bool)
    (sd tm md : Nat) (fn : Nat → Except AxiosErr T) :
    ∀ left n, ∃ k,
      (backOffGo retry sd tm md fn left n).2 =
        (List.range k).map (fun i => backOffDelay sd tm md (n + i)) ∧
      k ≤ left := by
  intro left
  induction left with
  | zero =>
    intro n
    refine ⟨0, ?_, le_refl 0⟩
    rw [backOffGo]
    cases fn n <;> simp
  | succ left' ih =>
    intro n
    rw [backOffGo]
    cases hfn : fn n with
    | ok v => exact ⟨0, by simp, Nat.zero_le _⟩
    | error e =>
      by_cases hr : retry e
      · obtain ⟨k, hk, hkle⟩ := ih (n + 1)
        refine ⟨k + 1, ?_, by omega⟩
        simp only [hr, if_true, hk, List.range_succ_eq_map, List.map_cons, List.map_map,
          Nat.add_zero]
        congr 1
        apply List.map_congr_left
        intro i _
        simp only [Function.comp_apply]
        congr 1
        omega
      · exact ⟨0, by simp [hr], Nat.zero_le _⟩

/-- C7 counterexample: HTTP 404 is a 400-class status, yet the retry
predicate retries it — a call that fails once with 404 and then succeeds
is retried (after the 30 s starting delay) and `withRetry` returns the
success instead of surfacing the 404 error, contradicting the claim that
400-class failures are not retried. -/
theorem withRetry_404_retried :
    (400 ≤ 404 ∧ 404 < 500) ∧
      withRetry (fun n => if n = 0 then .error ⟨some 404⟩ else .ok (42 : Nat)) =
        (.ok 42, [30 * 1000]) := by
  constructor
  · exact ⟨by decide, by decide⟩
  · rfl

/-- C7 amended: `withRetry(fn)` makes at most 100 attempts; the delays
slept are exactly `min(120000, 30000·2^n)` for `n = 0, 1, …`
(start 30 s, multiplier 2, cap 120 s); an error whose status is exactly
HTTP 400 is never retried and is surfaced to the caller with no delay;
any other first-attempt failure is retried. -/
theorem withRetry_spec {T : Type} (fn : Nat → Except AxiosErr T) :
    (withRetry fn).2.length ≤ 99 ∧
    (withRetry fn).2 =
      (List.range (withRetry fn).2.length).map
        (fun n => min (2 * 60 * 1000) (30 * 1000 * 2 ^ n)) ∧
    (∀ e, fn 0 = .error e → e.status = some 400 →
      withRetry fn = (.error e, [])) ∧
    (∀ e v, fn 0 = .error e → e.status ≠ some 400 → fn 1 = .ok v →
      withRetry fn = (.ok v, [30 * 1000])) := by
  obtain ⟨k, hk, hkle⟩ :=
    backOffGo_delays klaviyoRetryPred (30 * 1000) 2 (2 * 60 * 1000) fn 99 0
  have hlen : (withRetry fn).2.length = k := by
    rw [withRetry, hk]
    simp
  refine ⟨by omega, ?_, ?_, ?_⟩
  · rw [hlen]
    conv_lhs => rw [withRetry, hk]
    apply List.map_congr_left
    intro i _
    simp [backOffDelay]
  · intro e h0 h400
    have hpred : klaviyoRetryPred e = false := by
      simp [klaviyoRetryPred, h400]
    rw [withRetry, show (99 : Nat) = 98 + 1 from rfl,
      backOffGo_eq_stop klaviyoRetryPred _ _ _ fn 98 0 e h0 hpred]
  · intro e v h0 h400 h1
    have hpred : klaviyoRetryPred e = true := by
      simp only [klaviyoRetryPred, bne_iff_ne, ne_eq]
      exact h400
    rw [withRetry, show (99 : Nat) = 98 + 1 from rfl,
      backOffGo_eq_cont klaviyoRetryPred _ _ _ fn 98 0 e h0 hpred,
      backOffGo_eq_ok klaviyoRetryPred _ _ _ fn 98 1 v h1]
    simp [backOffDelay]

/-- C7 amended witness: `withRetry` on a function failing with exactly
HTTP 400 on the first attempt surfaces the error without retrying. -/
theorem withRetry_spec_witness :
    withRetry (fun _ => (.error ⟨some 400⟩ : Except AxiosErr Nat)) =
      (.error ⟨some 400⟩, []) :=
  (withRetry_spec (fun _ => (.error ⟨some 400⟩ : Except AxiosErr Nat))).2.2.1
    ⟨some 400⟩ rfl rfl

/-! ## Parallel-sequential orchestrator: `parallelSequentialRead`

TypeScript source (streams/klaviyo.ts, newest revision):
```
const cursorField = Array.isArray(this.cursorField) ? undefined : this.cursorField;
const dedupe = options.dedupe && !!this.primaryKey;
...
const n = streams.length;
for (let i = 0; i < n; i++) {
  const stream = streams.shift();
  const streamDedupe = dedupe && i < n - 1;
  const nextStreamCutoff =
    i < n - 1 && args[i + 1].from
      ? args[i + 1].from.clone().subtract(2, 'minute')
      : undefined;
  this.controller.signal.throwIfAborted();
  for await (const item of stream.process()) {
    this.controller.signal.throwIfAborted();
    if (dedupe) {
      if (
        streamDedupe &&
        (!nextStreamCutoff ||
          !item[cursorField] ||
          moment.utc(item[cursorField]).isAfter(nextStreamCutoff))
      ) {
        this.currentIds.add(item[this.primaryKey]);
      }
      if (this.lastIds.has(item[this.primaryKey])) {
        continue;
      }
    }
    yield item;
  }
  await stream.cleanup();
  this.lastIds = this.currentIds;
  this.currentIds = new Set<string>();
}
```
An item is modelled by the two fields the loop inspects: its primary-key
value `pk = item[this.primaryKey]` and its cursor value
`cursor = item[cursorField]` (`none` for a missing/falsy value — the
cursor values of these streams are ISO datetime strings, which are never
falsy when present).  A shard is the generator argument's `from` together
with the record sequence its producer writes to the spool.
`Set<string>` is modelled as a list with membership. -/

/-- A record as seen by the orchestrator. -/
structure Item where
  pk : String
  cursor : Option Int
deriving DecidableEq, Repr

instance : Inhabited Item := ⟨⟨"", none⟩⟩

/-- One shard: the generator argument's `from` (epoch ms, `none` for a
missing `from`) and the records its producer writes. -/
structure ShardArg where
  fromTime : Option Int
  items : List Item
deriving DecidableEq, Repr

instance : Inhabited ShardArg := ⟨⟨none, []⟩⟩

/-- Two minutes in milliseconds (`subtract(2, 'minute')`). -/
def twoMinutesMs : Int := 2 * 60 * 1000

/-- `nextStreamCutoff` for the shard whose successors are `rest`:
`args[i+1].from − 2 min` when there is a next shard with a `from`,
`undefined` otherwise. -/
def nextCutoff (rest : List ShardArg) : Option Int :=
  match rest with
  | [] => none
  | s :: _ => s.fromTime.map (fun v => v - twoMinutesMs)

/-- The windowing test guarding `currentIds.add`:
`!nextStreamCutoff || !item[cursorField] || moment.utc(item[cursorField]).isAfter(nextStreamCutoff)`.
`cfPresent` is whether `cursorField` survived the `Array.isArray`
collapse. -/
def addCond (cfPresent : Bool) (cutoff : Option Int) (r : Item) : Bool :=
  match cutoff with
  | none => true
  | some c =>
    match (if cfPresent then r.cursor else none) with
    | none => true
    | some v => decide (c < v)

/-- The dedup/emit loop over one shard's records.  Returns the emitted
records and the primary-key values added to `currentIds` (the add
happens before the `lastIds` skip check, so skipped records still feed
`currentIds`; `lastIds` is fixed for the whole shard). -/
def procShard (dedupe streamDedupe cfPresent : Bool) (cutoff : Option Int)
    (lastIds : List String) : List Item → List Item × List String
  | [] => ([], [])
  | r :: rs =>
    let rest := procShard dedupe streamDedupe cfPresent cutoff lastIds rs
    (if dedupe && lastIds.contains r.pk then rest.1 else r :: rest.1,
     if dedupe && (streamDedupe && addCond cfPresent cutoff r)
       then r.pk :: rest.2 else rest.2)

/-- The sequential consumer over all shards: per shard the pair
(emitted records, `currentIds` collected); each shard's `currentIds`
becomes the next shard's `lastIds`. -/
def psrShards (dedupe cfPresent : Bool) (lastIds : List String) :
    List ShardArg → List (List Item × List String)
  | [] => []
  | s :: rest =>
    let p := procShard dedupe (dedupe && !rest.isEmpty) cfPresent
      (nextCutoff rest) lastIds s.items
    p :: psrShards dedupe cfPresent p.2 rest

/-- The record sequence `parallelSequentialRead` yields (failure-free
run). -/
def psrOut (dedupe cfPresent : Bool) (lastIds : List String)
    (shards : List ShardArg) : List Item :=
  ((psrShards dedupe cfPresent lastIds shards).map Prod.fst).flatten

/-- The stream's `cursorField` declaration: a single field name or an
array of field names. -/
inductive CursorFieldDecl
  | single (f : String)
  | multi (fs : List String)
deriving DecidableEq, Repr

/-- `Array.isArray(this.cursorField) ? undefined : this.cursorField`. -/
def collapseCursorField : CursorFieldDecl → Option String
  | .single f => some f
  | .multi _ => none

/-- The Events stream's cursor field declaration (events.ts):
`get cursorField() { return ['datetime']; }` — an array. -/
def eventsCursorField : CursorFieldDecl := .multi ["datetime"]

/-- Top-level entry: `dedupe = options.dedupe && !!this.primaryKey`
(string truthiness = non-empty) and the cursor-field collapse. -/
def parallelSequentialRead (dedupeOpt : Bool) (primaryKey : String)
    (cf : CursorFieldDecl) (shards : List ShardArg) : List Item :=
  psrOut (dedupeOpt && !(primaryKey == "")) (collapseCursorField cf).isSome
    [] shards

lemma procShard_cons_fst (d sd cf : Bool) (c : Option Int) (l : List String)
    (r : Item) (rs : List Item) :
    (procShard d sd cf c l (r :: rs)).1 =
      if d && l.contains r.pk then (procShard d sd cf c l rs).1
      else r :: (procShard d sd cf c l rs).1 := rfl

lemma procShard_cons_snd (d sd cf : Bool) (c : Option Int) (l : List String)
    (r : Item) (rs : List Item) :
    (procShard d sd cf c l (r :: rs)).2 =
      if d && (sd && addCond cf c r) then r.pk :: (procShard d sd cf c l rs).2
      else (procShard d sd cf c l rs).2 := rfl

lemma procShard_snd_mem (d sd cf : Bool) (c : Option Int) (l : List String)
    (items : List Item) (p : String) :
    p ∈ (procShard d sd cf c l items).2 ↔
      d = true ∧ sd = true ∧
        ∃ r ∈ items, r.pk = p ∧ addCond cf c r = true := by
  induction items with
  | nil => simp [procShard]
  | cons r rs ih =>
    rw [procShard_cons_snd]
    by_cases hc : (d && (sd && addCond cf c r)) = true
    · obtain ⟨hd, hsd, hac⟩ : d = true ∧ sd = true ∧ addCond cf c r = true := by
        simpa using hc
      rw [if_pos hc]
      simp only [List.mem_cons, ih]
      constructor
      · rintro (rfl | ⟨hd', hsd', r', hr', hpk, hac'⟩)
        · exact ⟨hd, hsd, r, Or.inl rfl, rfl, hac⟩
        · exact ⟨hd', hsd', r', Or.inr hr', hpk, hac'⟩
      · rintro ⟨hd', hsd', r', rfl | hmem, hpk, hac'⟩
        · exact Or.inl hpk.symm
        · exact Or.inr ⟨hd', hsd', r', hmem, hpk, hac'⟩
    · rw [if_neg hc, ih]
      simp only [List.mem_cons]
      constructor
      · rintro ⟨hd, hsd, r', hr', hpk, hac'⟩
        exact ⟨hd, hsd, r', Or.inr hr', hpk, hac'⟩
      · rintro ⟨hd, hsd, r', rfl | hmem, hpk, hac'⟩
        · exact absurd (show (d && (sd && addCond cf c r')) = true by
            simp [hd, hsd, hac']) hc
        · exact ⟨hd, hsd, r', hmem, hpk, hac'⟩

lemma procShard_fst_mem (sd cf : Bool) (c : Option Int) (l : List String)
    (items : List Item) (r' : Item)
    (h : r' ∈ (procShard true sd cf c l items).1) :
    r' ∈ items ∧ l.contains r'.pk = false := by
  induction items with
  | nil => simp [procShard] at h
  | cons r rs ih =>
    rw [procShard_cons_fst] at h
    by_cases hc : r.pk ∈ l
    · rw [if_pos (by simpa using hc)] at h
      obtain ⟨h1, h2⟩ := ih h
      exact ⟨List.mem_cons_of_mem r h1, h2⟩
    · rw [if_neg (by simpa using hc)] at h
      rcases List.mem_cons.mp h with rfl | hmem
      · exact ⟨List.mem_cons_self r' rs, by simpa using hc⟩
      · obtain ⟨h1, h2⟩ := ih hmem
        exact ⟨List.mem_cons_of_mem r h1, h2⟩

/-- Characterization of the `currentIds` set collected during shard `i`:
a key is added exactly when dedup is on, shard `i` has a successor, and
some record of shard `i` with that key passes the 2-minute window test. -/
lemma psrShards_currentIds_mem (dedupe cfPresent : Bool) :
    ∀ (shards : List ShardArg) (lastIds : List String) (i : Nat) (p : String),
      p ∈ ((psrShards dedupe cfPresent lastIds shards).getD i ([], [])).2 ↔
        (i + 1 < shards.length ∧ dedupe = true ∧
          ∃ r ∈ (shards.getD i default).items, r.pk = p ∧
            addCond cfPresent (nextCutoff (shards.drop (i + 1))) r = true) := by
  intro shards
  induction shards with
  | nil =>
    intro lastIds i p
    simp [psrShards]
  | cons s rest ih =>
    intro lastIds i p
    cases i with
    | zero =>
      simp only [psrShards, List.getD_cons_zero, List.length_cons, List.drop_one,
        List.drop_succ_cons, List.drop_zero]
      rw [procShard_snd_mem]
      constructor
      · rintro ⟨hd, hsd, hr⟩
        refine ⟨?_, hd, hr⟩
        have : rest.isEmpty = false := by
          rcases Bool.and_eq_true .. |>.mp hsd with ⟨_, h2⟩
          simpa using h2
        simp only [Nat.add_lt_add_iff_right]
        cases rest with
        | nil => simp at this
        | cons _ _ => simp
      · rintro ⟨hlen, hd, hr⟩
        refine ⟨hd, ?_, hr⟩
        have hne : rest ≠ [] := by
          intro hrest
          rw [hrest] at hlen
          simp at hlen
        simp [hd, hne]
    | succ i =>
      simp only [psrShards, List.getD_cons_succ, List.length_cons, List.drop_succ_cons]
      rw [ih]
      simp [Nat.add_lt_add_iff_right]

/-- C6: with dedup enabled, a record's primary-key value is inserted into
`currentIds` during shard `i` exactly when shard `i` is non-final and the
record's cursor value is after the next shard's `from` minus 2 minutes
(or the cursor value or the next shard's `from` is missing); in
particular the final shard never contributes to `currentIds`. -/
theorem currentIds_window_spec (dedupe cfPresent : Bool)
    (shards : List ShardArg) (lastIds : List String) (i : Nat) (p : String) :
    p ∈ ((psrShards dedupe cfPresent lastIds shards).getD i ([], [])).2 ↔
      (i + 1 < shards.length ∧ dedupe = true ∧
        ∃ r ∈ (shards.getD i default).items, r.pk = p ∧
          addCond cfPresent (nextCutoff (shards.drop (i + 1))) r = true) :=
  psrShards_currentIds_mem dedupe cfPresent shards lastIds i p

lemma addCond_no_cursorField (c : Option Int) (r : Item) :
    addCond false c r = true := by
  cases c <;> simp [addCond]

/-- C10: for a stream whose `cursorField` is an array (Events), the
`Array.isArray` collapse makes the orchestrator's cursor field
`undefined`, so the 2-minute window test is vacuously true: with dedup
enabled, every record of every non-final shard has its primary-key value
inserted into `currentIds`, whatever its cursor value. -/
theorem events_currentIds_unbounded :
    collapseCursorField eventsCursorField = none ∧
    ∀ (lastIds : List String) (shards : List ShardArg) (i : Nat) (r : Item),
      i + 1 < shards.length → r ∈ (shards.getD i default).items →
      r.pk ∈
        ((psrShards true (collapseCursorField eventsCursorField).isSome
          lastIds shards).getD i ([], [])).2 := by
  refine ⟨rfl, ?_⟩
  intro lastIds shards i r hi hr
  rw [psrShards_currentIds_mem]
  exact ⟨hi, rfl, r, hr, rfl, addCond_no_cursorField _ r⟩

/-- C10 witness: a record of the non-final shard whose cursor value 0 is
far before the next shard's `from` minus 2 minutes is nevertheless added
to `currentIds` when the cursor field is collapsed. -/
theorem events_currentIds_unbounded_witness :
    "a" ∈
      ((psrShards true (collapseCursorField eventsCursorField).isSome []
        [⟨some 0, [⟨"a", some 0⟩]⟩, ⟨some 600000, []⟩]).getD 0 ([], [])).2 :=
  events_currentIds_unbounded.2 []
    [⟨some 0, [⟨"a", some 0⟩]⟩, ⟨some 600000, []⟩] 0 ⟨"a", some 0⟩
    (by decide) (by decide)

/-- The two shards of the C2 counterexample: the shard-0 record's cursor
value 1000 is not after `300000 − 120000`, so its key is not retained in
`currentIds`, and the shard-1 record with the same key is re-emitted. -/
def c2Shards : List ShardArg :=
  [⟨some 0, [⟨"a", some 1000⟩]⟩, ⟨some 300000, [⟨"a", some 300500⟩]⟩]

/-- C2 counterexample: with dedup enabled and a primary key present, the
same primary-key value "a" is emitted in both of two adjacent shards —
the shard-1 occurrence is not skipped because the shard-0 occurrence
fell outside the 2-minute window and was never added to `currentIds`. -/
theorem psr_crossShard_duplicate :
    parallelSequentialRead true "id" (.single "datetime") c2Shards =
      [⟨"a", some 1000⟩, ⟨"a", some 300500⟩] ∧
    (parallelSequentialRead true "id" (.single "datetime") c2Shards).map
      Item.pk = ["a", "a"] := by
  constructor <;> rfl

/-- C2 amended: with dedup on, a primary-key value is never emitted from
shard `i+1` when some record of shard `i` carrying that key passed the
2-minute window test (and was therefore inserted into `currentIds`);
duplicates whose shard-`i` occurrence fell outside the window are not
suppressed. -/
theorem psr_dedup_adjacent (cf : Bool) (l0 : List String)
    (shards : List ShardArg) (i : Nat) (r r' : Item)
    (hi : i + 1 < shards.length)
    (hr : r ∈ (shards.getD i default).items)
    (hw : addCond cf (nextCutoff (shards.drop (i + 1))) r = true)
    (hr' : r' ∈ ((psrShards true cf l0 shards).getD (i + 1) ([], [])).1) :
    r'.pk ≠ r.pk := by
  induction i generalizing shards l0 with
  | zero =>
    match shards, hi with
    | s :: s2 :: rest2, _ =>
      simp only [List.getD_cons_zero] at hr
      simp only [List.drop_succ_cons, List.drop_zero] at hw
      have hcur : r.pk ∈
          (procShard true (true && !(s2 :: rest2).isEmpty) cf
            (nextCutoff (s2 :: rest2)) l0 s.items).2 := by
        rw [procShard_snd_mem]
        exact ⟨rfl, by simp, r, hr, rfl, hw⟩
      simp only [psrShards, List.getD_cons_succ, List.getD_cons_zero] at hr'
      obtain ⟨_, hnc⟩ := procShard_fst_mem _ _ _ _ _ _ hr'
      intro hpk
      rw [hpk] at hnc
      exact (by simpa using hnc : r.pk ∉ _) hcur
  | succ i ih =>
    match shards, hi with
    | s :: rest, hi =>
      simp only [List.getD_cons_succ] at hr
      simp only [List.drop_succ_cons] at hw
      simp only [psrShards, List.getD_cons_succ] at hr'
      exact ih _ rest (by simpa using hi) hr hw hr'

/-- C2 amended witness: the shard-0 record ⟨"b", 190000⟩ passes the
window test against `300000 − 120000`, so no record with key "b" is
emitted from shard 1; the emitted shard-1 record ⟨"c", 1⟩ has a
different key. -/
theorem psr_dedup_adjacent_witness :
    (⟨"c", some 1⟩ : Item).pk ≠ (⟨"b", some 190000⟩ : Item).pk :=
  psr_dedup_adjacent true []
    [⟨some 0, [⟨"b", some 190000⟩]⟩,
     ⟨some 300000, [⟨"b", some 300500⟩, ⟨"c", some 1⟩]⟩]
    0 ⟨"b", some 190000⟩ ⟨"c", some 1⟩
    (by decide) (by decide) (by decide) (by decide)

/-! ### Run model with a failing producer

A shard producer failure with a non-`AbortError` error aborts the shared
controller (`this.controller.abort()` in `FileBufferedProcessor.start`'s
catch, and again in the unawaited worker).  Once aborted, every
`throwIfAborted` in the consumer throws an `AbortError`, which
`process()` and the orchestrator's catch both swallow, so the generator
returns normally.  The producer error itself reaches the consumer only
through `Promise.race([pEvent(watcher, …), this.writeWorker])` at the end
of the failing shard's spool, racing against the watcher's abort error.

The run model makes the scheduling explicit:
* `checks` — how many consumer-side `throwIfAborted` checks (one per
  shard loop head, one per drained record) pass before the abort
  becomes visible;
* `fail` — the index of the shard whose producer fails (its `items` are
  the records written before the failure);
* `raceWins` — whether the writer's rejection wins the race at the end
  of the failing shard's spool (`true`) or the watcher's abort error
  does (`false`).

Shards past the failing one are never reached: the consumer cannot see
the failing spool's `isDone` before the failure, and after the failure
every check aborts. -/

/-- Outcome of draining one shard under a check budget. -/
structure RunShardOut where
  emitted : List Item
  cur : List String
  checksLeft : Nat
  aborted : Bool
deriving DecidableEq, Repr

/-- Drain one shard: per record one abort check, then the dedup logic of
`procShard`.  When the budget runs out the drain stops (`process()`
swallows the `AbortError` and returns early). -/
def runShard (dedupe streamDedupe cfPresent : Bool) (cutoff : Option Int)
    (lastIds : List String) : Nat → List Item → RunShardOut
  | checks, [] => ⟨[], [], checks, false⟩
  | 0, _ :: _ => ⟨[], [], 0, true⟩
  | checks + 1, r :: rs =>
    let rest := runShard dedupe streamDedupe cfPresent cutoff lastIds checks rs
    ⟨if dedupe && lastIds.contains r.pk then rest.emitted
      else r :: rest.emitted,
     if dedupe && (streamDedupe && addCond cfPresent cutoff r)
      then r.pk :: rest.cur else rest.cur,
     rest.checksLeft, rest.aborted⟩

/-- How `parallelSequentialRead` terminates: normally, or by throwing
the failing producer's (non-cancellation) error. -/
inductive PSRResult
  | normal
  | failed
deriving DecidableEq, Repr

/-- The consumer loop of `parallelSequentialRead` during a run whose
`fail`-th remaining shard's producer fails. -/
def runGo (dedupe cfPresent raceWins : Bool) (lastIds : List String) :
    Nat → Nat → List ShardArg → List Item × PSRResult
  | _, _, [] => ([], .normal)
  | 0, _, _ :: _ => ([], .normal)
  | checks + 1, 0, s :: rest =>
    let p := runShard dedupe (dedupe && !rest.isEmpty) cfPresent
      (nextCutoff rest) lastIds checks s.items
    if p.aborted then (p.emitted, .normal)
    else (p.emitted, if raceWins then .failed else .normal)
  | checks + 1, fail + 1, s :: rest =>
    let p := runShard dedupe (dedupe && !rest.isEmpty) cfPresent
      (nextCutoff rest) lastIds checks s.items
    if p.aborted then (p.emitted, .normal)
    else
      let next := runGo dedupe cfPresent raceWins p.cur p.checksLeft
        fail rest
      (p.emitted ++ next.1, next.2)

/-- A run of `parallelSequentialRead` in which shard `failIdx`'s
producer fails with a non-cancellation error. -/
def runPSR (dedupe cfPresent raceWins : Bool) (failIdx checks : Nat)
    (shards : List ShardArg) : List Item × PSRResult :=
  runGo dedupe cfPresent raceWins [] checks failIdx shards

/-- Checks the consumer must pass to reach the end of the failing
shard's spool: one per shard loop head plus one per record, through
shard `fail`. -/
def totalChecks : Nat → List ShardArg → Nat
  | _, [] => 0
  | 0, s :: _ => 1 + s.items.length
  | f + 1, s :: rest => 1 + s.items.length + totalChecks f rest

lemma runShard_nil (d sd cf : Bool) (c : Option Int) (l : List String)
    (checks : Nat) :
    runShard d sd cf c l checks [] = ⟨[], [], checks, false⟩ := by
  cases checks <;> rfl

lemma runShard_cons_zero (d sd cf : Bool) (c : Option Int) (l : List String)
    (r : Item) (rs : List Item) :
    runShard d sd cf c l 0 (r :: rs) = ⟨[], [], 0, true⟩ := rfl

lemma runShard_cons_succ (d sd cf : Bool) (c : Option Int) (l : List String)
    (checks : Nat) (r : Item) (rs : List Item) :
    runShard d sd cf c l (checks + 1) (r :: rs) =
      ⟨if d && l.contains r.pk then (runShard d sd cf c l checks rs).emitted
        else r :: (runShard d sd cf c l checks rs).emitted,
       if d && (sd && addCond cf c r)
        then r.pk :: (runShard d sd cf c l checks rs).cur
        else (runShard d sd cf c l checks rs).cur,
       (runShard d sd cf c l checks rs).checksLeft,
       (runShard d sd cf c l checks rs).aborted⟩ := rfl

lemma runShard_emitted_pre (d sd cf : Bool) (c : Option Int)
    (l : List String) (items : List Item) :
    ∀ checks, ∃ t,
      (runShard d sd cf c l checks items).emitted ++ t =
        (procShard d sd cf c l items).1 := by
  induction items with
  | nil =>
    intro checks
    refine ⟨[], ?_⟩
    rw [runShard_nil]
    simp [procShard]
  | cons r rs ih =>
    intro checks
    cases checks with
    | zero =>
      refine ⟨(procShard d sd cf c l (r :: rs)).1, ?_⟩
      rw [runShard_cons_zero]
      simp
    | succ checks' =>
      obtain ⟨t, ht⟩ := ih checks'
      refine ⟨t, ?_⟩
      rw [runShard_cons_succ, procShard_cons_fst]
      by_cases hc : (d && l.contains r.pk) = true
      · simp only [hc, if_true]
        exact ht
      · rw [if_neg hc, if_neg hc]
        simp [ht]

lemma runShard_complete (d sd cf : Bool) (c : Option Int)
    (l : List String) (items : List Item) :
    ∀ checks, (runShard d sd cf c l checks items).aborted = false →
      (runShard d sd cf c l checks items).emitted =
        (procShard d sd cf c l items).1 ∧
      (runShard d sd cf c l checks items).cur =
        (procShard d sd cf c l items).2 ∧
      (runShard d sd cf c l checks items).checksLeft =
        checks - items.length := by
  induction items with
  | nil =>
    intro checks _
    rw [runShard_nil]
    exact ⟨by simp [procShard], by simp [procShard], by simp⟩
  | cons r rs ih =>
    intro checks hab
    cases checks with
    | zero =>
      rw [runShard_cons_zero] at hab
      simp at hab
    | succ checks' =>
      rw [runShard_cons_succ] at hab ⊢
      obtain ⟨h1, h2, h3⟩ := ih checks' hab
      rw [procShard_cons_fst, procShard_cons_snd]
      refine ⟨by rw [h1], by rw [h2], ?_⟩
      simpa using h3

lemma runShard_not_aborted (d sd cf : Bool) (c : Option Int)
    (l : List String) (items : List Item) :
    ∀ checks, items.length ≤ checks →
      (runShard d sd cf c l checks items).aborted = false := by
  induction items with
  | nil =>
    intro checks _
    rw [runShard_nil]
  | cons r rs ih =>
    intro checks hle
    cases checks with
    | zero => simp at hle
    | succ checks' =>
      rw [runShard_cons_succ]
      exact ih checks' (by simpa using hle)

lemma psrOut_nil (d cf : Bool) (l : List String) :
    psrOut d cf l [] = [] := rfl

lemma psrOut_cons (d cf : Bool) (l : List String) (s : ShardArg)
    (rest : List ShardArg) :
    psrOut d cf l (s :: rest) =
      (procShard d (d && !rest.isEmpty) cf (nextCutoff rest) l s.items).1 ++
        psrOut d cf
          (procShard d (d && !rest.isEmpty) cf (nextCutoff rest) l
            s.items).2 rest := by
  simp [psrOut, psrShards]

lemma runGo_nil (d cf rw : Bool) (l : List String) (checks fail : Nat) :
    runGo d cf rw l checks fail [] = ([], .normal) := by
  cases checks <;> cases fail <;> rfl

lemma runGo_zero (d cf rw : Bool) (l : List String) (fail : Nat)
    (s : ShardArg) (rest : List ShardArg) :
    runGo d cf rw l 0 fail (s :: rest) = ([], .normal) := by
  cases fail <;> rfl

lemma runGo_succ_zero (d cf rw : Bool) (l : List String) (checks : Nat)
    (s : ShardArg) (rest : List ShardArg) :
    runGo d cf rw l (checks + 1) 0 (s :: rest) =
      (if (runShard d (d && !rest.isEmpty) cf (nextCutoff rest) l checks
            s.items).aborted then
        ((runShard d (d && !rest.isEmpty) cf (nextCutoff rest) l checks
          s.items).emitted, .normal)
      else
        ((runShard d (d && !rest.isEmpty) cf (nextCutoff rest) l checks
          s.items).emitted, if rw then .failed else .normal)) := rfl

lemma runGo_succ_succ (d cf rw : Bool) (l : List String) (checks fail : Nat)
    (s : ShardArg) (rest : List ShardArg) :
    runGo d cf rw l (checks + 1) (fail + 1) (s :: rest) =
      (if (runShard d (d && !rest.isEmpty) cf (nextCutoff rest) l checks
            s.items).aborted then
        ((runShard d (d && !rest.isEmpty) cf (nextCutoff rest) l checks
          s.items).emitted, .normal)
      else
        ((runShard d (d && !rest.isEmpty) cf (nextCutoff rest) l checks
            s.items).emitted ++
          (runGo d cf rw
            (runShard d (d && !rest.isEmpty) cf (nextCutoff rest) l checks
              s.items).cur
            (runShard d (d && !rest.isEmpty) cf (nextCutoff rest) l checks
              s.items).checksLeft fail rest).1,
         (runGo d cf rw
            (runShard d (d && !rest.isEmpty) cf (nextCutoff rest) l checks
              s.items).cur
            (runShard d (d && !rest.isEmpty) cf (nextCutoff rest) l checks
              s.items).checksLeft fail rest).2)) := rfl

lemma runGo_pre (d cf rw : Bool) :
    ∀ (shards : List ShardArg) (lastIds : List String) (checks fail : Nat),
      ∃ t, (runGo d cf rw lastIds checks fail shards).1 ++ t =
        psrOut d cf lastIds shards := by
  intro shards
  induction shards with
  | nil =>
    intro lastIds checks fail
    refine ⟨[], ?_⟩
    rw [psrOut_nil, runGo_nil]
    rfl
  | cons s rest ih =>
    intro lastIds checks fail
    cases checks with
    | zero =>
      refine ⟨psrOut d cf lastIds (s :: rest), ?_⟩
      rw [runGo_zero]
      rfl
    | succ checks' =>
      rw [psrOut_cons]
      by_cases hab : (runShard d (d && !rest.isEmpty) cf (nextCutoff rest)
          lastIds checks' s.items).aborted = true
      · obtain ⟨t1, ht1⟩ := runShard_emitted_pre d (d && !rest.isEmpty) cf
          (nextCutoff rest) lastIds s.items checks'
        cases fail with
        | zero =>
          rw [runGo_succ_zero, if_pos hab]
          exact ⟨t1 ++ _, by rw [← List.append_assoc, ht1]⟩
        | succ fail' =>
          rw [runGo_succ_succ, if_pos hab]
          exact ⟨t1 ++ _, by rw [← List.append_assoc, ht1]⟩
      · obtain ⟨h1, h2, _⟩ := runShard_complete d (d && !rest.isEmpty) cf
          (nextCutoff rest) lastIds s.items checks'
          (Bool.not_eq_true _ ▸ hab)
        cases fail with
        | zero =>
          rw [runGo_succ_zero, if_neg hab]
          exact ⟨_, by rw [h1]⟩
        | succ fail' =>
          rw [runGo_succ_succ, if_neg hab]
          obtain ⟨t, ht⟩ := ih _ _ fail'
          refine ⟨t, ?_⟩
          rw [List.append_assoc, h1, h2, ht]

lemma runGo_failed (d cf : Bool) :
    ∀ (shards : List ShardArg) (lastIds : List String) (checks fail : Nat),
      fail < shards.length → totalChecks fail shards ≤ checks →
      (runGo d cf true lastIds checks fail shards).2 = .failed := by
  intro shards
  induction shards with
  | nil =>
    intro lastIds checks fail hf
    simp at hf
  | cons s rest ih =>
    intro lastIds checks fail hf hc
    have hpos : 1 ≤ checks := by
      cases fail <;> simp only [totalChecks] at hc <;> omega
    cases checks with
    | zero => omega
    | succ checks' =>
      have hlen : s.items.length ≤ checks' := by
        cases fail <;> simp only [totalChecks] at hc <;> omega
      have hab := runShard_not_aborted d (d && !rest.isEmpty) cf
        (nextCutoff rest) lastIds s.items checks' hlen
      cases fail with
      | zero =>
        rw [runGo_succ_zero, if_neg (by simp [hab])]
        rfl
      | succ fail' =>
        rw [runGo_succ_succ, if_neg (by simp [hab])]
        obtain ⟨_, _, h3⟩ := runShard_complete d (d && !rest.isEmpty) cf
          (nextCutoff rest) lastIds s.items checks' hab
        apply ih _ _ fail' (by simpa using hf)
        rw [h3]
        simp only [totalChecks] at hc
        omega

/-- The C1 counterexample run: two shards; shard 1's producer fails
immediately with a non-cancellation error (having written nothing),
aborting the controller before the consumer's first check. -/
def c1Shards : List ShardArg :=
  [⟨some 0, [⟨"a", some 10⟩]⟩, ⟨some 3600000, []⟩]

/-- C1 counterexample: with shard 1's producer failing (a non-AbortError
failure, so the controller is aborted), the consumer's first
`throwIfAborted` raises an `AbortError` that `parallelSequentialRead`'s
catch swallows, and the generator terminates NORMALLY having yielded
only the empty prefix — the producer's error never surfaces from the
generator, contradicting the claim. -/
theorem psr_failure_swallowed :
    1 < c1Shards.length ∧
      runPSR false false true 1 0 c1Shards = ([], .normal) :=
  ⟨by decide, rfl⟩

/-- C1 amended: when shard `failIdx`'s producer fails with a
non-cancellation error, the controller is aborted and
`parallelSequentialRead` either fails with that error (this happens
whenever the writer's rejection wins the end-of-spool race after the
consumer reached the failing shard's end), or terminates normally having
yielded only a (possibly improper) prefix of the records of a
failure-free drain; in neither case does it yield records beyond that
prefix. -/
theorem runPSR_failure_spec (dedupe cfPresent raceWins : Bool)
    (failIdx checks : Nat) (shards : List ShardArg)
    (hf : failIdx < shards.length) :
    ((runPSR dedupe cfPresent raceWins failIdx checks shards).2 = .failed ∨
      (runPSR dedupe cfPresent raceWins failIdx checks shards).2 = .normal) ∧
    (∃ t, (runPSR dedupe cfPresent raceWins failIdx checks shards).1 ++ t =
      psrOut dedupe cfPresent [] shards) ∧
    (raceWins = true → totalChecks failIdx shards ≤ checks →
      (runPSR dedupe cfPresent raceWins failIdx checks shards).2 =
        .failed) := by
  refine ⟨?_, ?_, ?_⟩
  · cases (runPSR dedupe cfPresent raceWins failIdx checks shards).2 with
    | normal => exact Or.inr rfl
    | failed => exact Or.inl rfl
  · exact runGo_pre dedupe cfPresent raceWins shards [] checks failIdx
  · rintro rfl hc
    exact runGo_failed dedupe cfPresent shards [] checks failIdx hf hc

/-- C1 amended witness: with the failing shard first and enough checks,
the error does surface and the run fails. -/
theorem runPSR_failure_spec_witness :
    (runPSR false false true 0 5 c1Shards).2 = .failed :=
  (runPSR_failure_spec false false true 0 5 c1Shards (by decide)).2.2 rfl
    (by decide)

/-! ## Spool: `FileBufferedProcessor`

TypeScript source (streams/klaviyo.ts, newest revision).  The writer
(`start`) appends `JSON.stringify(value) + '\n'` per record, flushing
whole lines, so the file content is the concatenation of the serialized
records each followed by a newline; `JSON.stringify` never emits a raw
newline, so every serialized record is newline-free.  The reader
(`process`) repeatedly reads a chunk of at most `readBufferLimit` bytes:
```
const lines = chunk.split('\n');
const nextPartial = lines.pop() ?? '';
for (i...) { if (i === 0) yield JSON.parse(lastPartial + lines[i]);
             else yield JSON.parse(lines[i]); }
lastPartial = nextPartial;
```
and the loop breaks when `isDone && !lastPartial`.  Records are modelled
at the serialized level as newline-free `List Char`; a run of the reader
is a list of chunks.  Because the writer flushes whole lines, a read
that is not cut short by the buffer limit ends just after a newline;
a read of exactly `readBufferLimit` bytes may end mid-line. -/

/-- `readBufferLimit = 512 * 1024` (bytes per read). -/
def readBufferLimit : Nat := 512 * 1024

/-- `chunk.split('\n')` — always returns at least one (possibly empty)
segment; segments contain no newline. -/
def splitNl : List Char → List (List Char)
  | [] => [[]]
  | c :: cs =>
    if c = '\n' then [] :: splitNl cs
    else
      match splitNl cs with
      | [] => [[c]]
      | l :: ls => (c :: l) :: ls

/-- One iteration of the reader on a non-empty chunk: split on newlines,
pop the last segment as the new partial, prepend the carried partial to
the first completed line only.  An empty read (`bytesRead === 0`) leaves
the state untouched. -/
def readerStep (pending chunk : List Char) : List (List Char) × List Char :=
  if chunk.isEmpty then ([], pending)
  else
    match (splitNl chunk).dropLast with
    | [] => ([], (splitNl chunk).getLastD [])
    | l0 :: restL => ((pending ++ l0) :: restL, (splitNl chunk).getLastD [])

/-- The reader over a whole run of chunks, threading the partial line. -/
def processChunks (pending : List Char) :
    List (List Char) → List (List Char) × List Char
  | [] => ([], pending)
  | c :: cs =>
    let st := readerStep pending c
    let rest := processChunks st.2 cs
    (st.1 ++ rest.1, rest.2)

/-- `process()` from a fresh state (empty carried partial). -/
def spoolProcess (chunks : List (List Char)) :
    List (List Char) × List Char :=
  processChunks [] chunks

/-- A serialized record followed by its newline, as `start()` writes it. -/
def encodeLine (r : List Char) : List Char := r ++ ['\n']

/-- The spool file content for a record sequence. -/
def encodeRecords (rs : List (List Char)) : List Char :=
  (rs.map encodeLine).flatten

/-- Which chunk decompositions a run of `fd.read` can produce: chunks
are non-empty, and a chunk that is not a full `readBufferLimit` read
ends at a line boundary (the writer flushes whole lines). -/
def feasibleChunks (chunks : List (List Char)) : Prop :=
  ∀ c ∈ chunks, c ≠ [] ∧
    (c.getLast? = some '\n' ∨ c.length = readBufferLimit)

/-- The reader loop's exit test: `if (this.isDone && !lastPartial) break`. -/
def readerLoopExits (isDone : Bool) (pending : List Char) : Bool :=
  isDone && pending.isEmpty

lemma splitNl_ne_nil (c : List Char) : splitNl c ≠ [] := by
  induction c with
  | nil => simp [splitNl]
  | cons a cs ih =>
    simp only [splitNl]
    by_cases h : a = '\n'
    · simp [h]
    · rw [if_neg h]
      cases hs : splitNl cs with
      | nil => simp
      | cons l ls => simp

lemma splitNl_no_newline (c : List Char) (h : '\n' ∉ c) : splitNl c = [c] := by
  induction c with
  | nil => rfl
  | cons a cs ih =>
    simp only [List.mem_cons, not_or] at h
    simp only [splitNl]
    rw [if_neg (fun hh => h.1 hh.symm), ih h.2]

lemma splitNl_mem (c : List Char) : ∀ l ∈ splitNl c, '\n' ∉ l := by
  induction c with
  | nil =>
    intro l hl
    simp only [splitNl, List.mem_singleton] at hl
    simp [hl]
  | cons a cs ih =>
    intro l hl
    simp only [splitNl] at hl
    by_cases ha : a = '\n'
    · rw [if_pos ha] at hl
      rcases List.mem_cons.mp hl with rfl | hl
      · simp
      · exact ih l hl
    · rw [if_neg ha] at hl
      cases hs : splitNl cs with
      | nil => exact absurd hs (splitNl_ne_nil cs)
      | cons l0 ls =>
        rw [hs] at hl
        rcases List.mem_cons.mp hl with rfl | hl
        · intro hmem
          rcases List.mem_cons.mp hmem with h1 | h1
          · exact ha h1.symm
          · exact ih l0 (hs ▸ List.mem_cons_self l0 ls) h1
        · exact ih l (hs ▸ List.mem_cons_of_mem l0 hl)

/-- Re-joining the split with newlines recovers the chunk. -/
def unsplitNl : List (List Char) → List Char
  | [] => []
  | [l] => l
  | l :: l' :: ls => l ++ '\n' :: unsplitNl (l' :: ls)

lemma unsplit_splitNl (c : List Char) : unsplitNl (splitNl c) = c := by
  induction c with
  | nil => rfl
  | cons a cs ih =>
    simp only [splitNl]
    by_cases ha : a = '\n'
    · rw [if_pos ha]
      cases hs : splitNl cs with
      | nil => exact absurd hs (splitNl_ne_nil cs)
      | cons l ls =>
        rw [hs] at ih
        show [] ++ '\n' :: unsplitNl (l :: ls) = a :: cs
        rw [List.nil_append, ih, ha]
    · rw [if_neg ha]
      cases hs : splitNl cs with
      | nil => exact absurd hs (splitNl_ne_nil cs)
      | cons l ls =>
        rw [hs] at ih
        cases ls with
        | nil =>
          show a :: l = a :: cs
          rw [show unsplitNl [l] = l from rfl] at ih
          rw [ih]
        | cons l' ls' =>
          show (a :: l) ++ '\n' :: unsplitNl (l' :: ls') = a :: cs
          rw [List.cons_append, ← ih]
          rfl

lemma encodeRecords_nil : encodeRecords [] = [] := rfl

lemma encodeRecords_cons (r : List Char) (rs : List (List Char)) :
    encodeRecords (r :: rs) = r ++ '\n' :: encodeRecords rs := by
  simp [encodeRecords, encodeLine]

lemma getLastD_mem_of_ne_nil {α : Type} :
    ∀ (ls : List α) (d : α), ls ≠ [] → ls.getLastD d ∈ ls := by
  intro ls
  induction ls with
  | nil => intro d h; contradiction
  | cons a ls ih =>
    intro d _
    cases ls with
    | nil => simp [List.getLastD]
    | cons b ls' =>
      have hstep : (a :: b :: ls').getLastD d = (b :: ls').getLastD d := by
        simp [List.getLastD]
      rw [hstep]
      exact List.mem_cons_of_mem a (ih d (by simp))

lemma enc_dropLast_getLast :
    ∀ (ls : List (List Char)), ls ≠ [] →
      encodeRecords ls.dropLast ++ ls.getLastD [] = unsplitNl ls := by
  intro ls
  induction ls with
  | nil => intro h; contradiction
  | cons l ls ih =>
    intro _
    cases ls with
    | nil => simp [encodeRecords, List.getLastD, unsplitNl]
    | cons l' ls' =>
      have h1 : (l :: l' :: ls').dropLast = l :: (l' :: ls').dropLast := rfl
      have h2 : (l :: l' :: ls').getLastD [] = (l' :: ls').getLastD [] := by
        simp [List.getLastD]
      rw [h1, h2, encodeRecords_cons, unsplitNl, ← ih (by simp)]
      simp

lemma readerStep_conservation (pending chunk : List Char) (hne : chunk ≠ [])
    (H : '\n' ∈ chunk ∨ pending = []) :
    encodeRecords (readerStep pending chunk).1 ++ (readerStep pending chunk).2 =
      pending ++ chunk := by
  rw [readerStep, if_neg (by simpa using hne)]
  cases hs : splitNl chunk with
  | nil => exact absurd hs (splitNl_ne_nil chunk)
  | cons l ls =>
    cases ls with
    | nil =>
      have hchunk : chunk = l := by
        have := unsplit_splitNl chunk
        rw [hs] at this
        exact this.symm
      have hnonl : '\n' ∉ chunk := by
        rw [hchunk]
        exact splitNl_mem chunk l (hs ▸ List.mem_cons_self l [])
      have hp : pending = [] := H.resolve_left hnonl
      simp [hp, hchunk, encodeRecords, List.getLastD]
    | cons l' ls' =>
      show encodeRecords ((pending ++ l) :: (l' :: ls').dropLast) ++
          (l :: l' :: ls').getLastD [] = pending ++ chunk
      have h2 : (l :: l' :: ls').getLastD [] = (l' :: ls').getLastD [] := by
        simp [List.getLastD]
      rw [h2, encodeRecords_cons, List.append_assoc, List.cons_append,
        enc_dropLast_getLast (l' :: ls') (by simp)]
      have hu := unsplit_splitNl chunk
      rw [hs] at hu
      rw [← hu]
      show pending ++ l ++ '\n' :: unsplitNl (l' :: ls') =
        pending ++ (l ++ '\n' :: unsplitNl (l' :: ls'))
      simp [List.append_assoc]

lemma readerStep_noNl (pending chunk : List Char) (hp : '\n' ∉ pending) :
    (∀ l ∈ (readerStep pending chunk).1, '\n' ∉ l) ∧
      '\n' ∉ (readerStep pending chunk).2 := by
  rw [readerStep]
  by_cases hc : chunk.isEmpty
  · rw [if_pos hc]
    exact ⟨by simp, hp⟩
  · rw [if_neg hc]
    have hlines := splitNl_mem chunk
    have hlast : '\n' ∉ (splitNl chunk).getLastD [] :=
      hlines _ (getLastD_mem_of_ne_nil (splitNl chunk) [] (splitNl_ne_nil chunk))
    cases hdl : (splitNl chunk).dropLast with
    | nil => exact ⟨by simp, hlast⟩
    | cons l0 restL =>
      refine ⟨?_, hlast⟩
      intro l hl
      rcases List.mem_cons.mp hl with rfl | hl
      · intro hmem
        rcases List.mem_append.mp hmem with h1 | h1
        · exact hp h1
        · exact hlines l0
            (List.dropLast_subset _ (hdl ▸ List.mem_cons_self l0 restL)) h1
      · exact hlines l (List.dropLast_subset _ (hdl ▸ List.mem_cons_of_mem l0 hl))

lemma append_eq_nl_cons :
    ∀ (a b u v : List Char), a ++ '\n' :: u = b ++ '\n' :: v →
      '\n' ∉ a → '\n' ∉ b → a = b ∧ u = v := by
  intro a
  induction a with
  | nil =>
    intro b u v h _ hb
    cases b with
    | nil => simpa using h
    | cons x xs =>
      simp only [List.nil_append, List.cons_append, List.cons.injEq] at h
      rw [← h.1] at hb
      exact absurd (List.mem_cons_self _ _) hb
  | cons x xs ih =>
    intro b u v h ha hb
    cases b with
    | nil =>
      simp only [List.cons_append, List.nil_append, List.cons.injEq] at h
      rw [h.1] at ha
      exact absurd (List.mem_cons_self _ _) ha
    | cons y ys =>
      simp only [List.cons_append, List.cons.injEq] at h
      obtain ⟨h1, h2⟩ :=
        ih ys u v h.2 (fun hm => ha (List.mem_cons_of_mem x hm))
          (fun hm => hb (List.mem_cons_of_mem y hm))
      exact ⟨by rw [h.1, h1], h2⟩

lemma encodeRecords_decomp :
    ∀ (xs ys : List (List Char)) (t : List Char),
      encodeRecords xs ++ t = encodeRecords ys →
      (∀ l ∈ xs, '\n' ∉ l) → (∀ l ∈ ys, '\n' ∉ l) →
      ∃ zs, ys = xs ++ zs ∧ t = encodeRecords zs := by
  intro xs
  induction xs with
  | nil =>
    intro ys t h _ _
    refine ⟨ys, rfl, ?_⟩
    simpa [encodeRecords] using h
  | cons x xs ih =>
    intro ys t h hx hy
    cases ys with
    | nil =>
      exfalso
      rw [encodeRecords_cons, encodeRecords_nil] at h
      simpa using congrArg List.length h
    | cons y ys' =>
      rw [encodeRecords_cons, encodeRecords_cons, List.append_assoc,
        List.cons_append] at h
      obtain ⟨h1, h2⟩ := append_eq_nl_cons x y _ _ h
        (hx x (List.mem_cons_self x xs)) (hy y (List.mem_cons_self y ys'))
      obtain ⟨zs, hz1, hz2⟩ := ih ys' t h2
        (fun l hl => hx l (List.mem_cons_of_mem x hl))
        (fun l hl => hy l (List.mem_cons_of_mem y hl))
      exact ⟨zs, by rw [h1, hz1, List.cons_append], hz2⟩

lemma pending_pre_of_eq :
    ∀ (p X r0 Y : List Char), p ++ X = r0 ++ '\n' :: Y → '\n' ∉ p →
      ∃ q, r0 = p ++ q := by
  intro p
  induction p with
  | nil =>
    intro X r0 Y _ _
    exact ⟨r0, rfl⟩
  | cons a p' ih =>
    intro X r0 Y h hp
    cases r0 with
    | nil =>
      simp only [List.cons_append, List.nil_append, List.cons.injEq] at h
      rw [h.1] at hp
      exact absurd (List.mem_cons_self _ _) hp
    | cons b r0' =>
      simp only [List.cons_append, List.cons.injEq] at h
      obtain ⟨q, hq⟩ := ih X r0' Y h.2 (fun hm => hp (List.mem_cons_of_mem a hm))
      exact ⟨q, by rw [h.1, hq, List.cons_append]⟩

lemma processChunks_nil (p : List Char) : processChunks p [] = ([], p) := rfl

lemma processChunks_cons (p : List Char) (c : List Char)
    (cs : List (List Char)) :
    processChunks p (c :: cs) =
      ((readerStep p c).1 ++ (processChunks (readerStep p c).2 cs).1,
        (processChunks (readerStep p c).2 cs).2) := rfl

lemma mem_of_getLast?_nl (c : List Char) (h : c.getLast? = some '\n') :
    '\n' ∈ c := by
  cases c with
  | nil => simp at h
  | cons x xs =>
    rw [List.getLast?_eq_getLast (x :: xs) (by simp)] at h
    injection h with h
    rw [← h]
    exact List.getLast_mem _

lemma mem_of_getElem?_eq {α : Type} (l : List α) (i : Nat) (a : α)
    (h : l[i]? = some a) : a ∈ l := by
  obtain ⟨hw, rfl⟩ := List.getElem?_eq_some.mp h
  exact List.getElem_mem hw

lemma processChunks_spec :
    ∀ (chunks : List (List Char)) (p : List Char) (rs : List (List Char)),
      feasibleChunks chunks →
      '\n' ∉ p →
      (∀ r ∈ rs, '\n' ∉ r ∧ r.length < readBufferLimit) →
      p ++ chunks.flatten = encodeRecords rs →
      processChunks p chunks = (rs, []) := by
  intro chunks
  induction chunks with
  | nil =>
    intro p rs _ hp _ heq
    simp only [List.flatten_nil, List.append_nil] at heq
    cases rs with
    | nil =>
      rw [processChunks_nil, encodeRecords_nil] at *
      rw [heq]
    | cons r rs' =>
      rw [encodeRecords_cons] at heq
      exfalso
      apply hp
      rw [heq]
      exact List.mem_append.mpr (Or.inr (List.mem_cons_self _ _))
  | cons ck cs ih =>
    intro p rs hfeas hp hrs heq
    obtain ⟨hcne, hcend⟩ := hfeas ck (List.mem_cons_self ck cs)
    rw [List.flatten_cons] at heq
    have H : '\n' ∈ ck ∨ p = [] := by
      rcases hcend with hend | hlen
      · exact Or.inl (mem_of_getLast?_nl ck hend)
      · by_cases hpe : p = []
        · exact Or.inr hpe
        · left
          cases rs with
          | nil =>
            rw [encodeRecords_nil] at heq
            simp only [List.append_eq_nil] at heq
            exact absurd heq.1 hpe
          | cons r0 rs' =>
            rw [encodeRecords_cons] at heq
            obtain ⟨q, hq⟩ := pending_pre_of_eq p _ r0 _ heq hp
            have hc2 : ck ++ cs.flatten = q ++ '\n' :: encodeRecords rs' := by
              have h' : p ++ (ck ++ cs.flatten) =
                  p ++ (q ++ '\n' :: encodeRecords rs') := by
                rw [heq, hq, List.append_assoc]
              exact List.append_cancel_left h'
            have hql : q.length < ck.length := by
              have h1 : r0.length < readBufferLimit :=
                (hrs r0 (List.mem_cons_self _ _)).2
              have h2 : r0.length = p.length + q.length := by
                rw [hq]
                simp
              have h3 : 0 < p.length := List.length_pos.mpr hpe
              rw [hlen]
              omega
            have hL : (ck ++ cs.flatten)[q.length]? = ck[q.length]? := by
              rw [List.getElem?_append]
              simp [hql]
            have hR : (q ++ '\n' :: encodeRecords rs')[q.length]? =
                some '\n' := by
              rw [List.getElem?_append_right (le_refl _)]
              simp
            have hget : ck[q.length]? = some '\n' := by
              rw [← hL, hc2, hR]
            exact mem_of_getElem?_eq ck q.length '\n' hget
    have hcons := readerStep_conservation p ck hcne H
    have hnl := readerStep_noNl p ck hp
    have heq2 : encodeRecords (readerStep p ck).1 ++
        ((readerStep p ck).2 ++ cs.flatten) = encodeRecords rs := by
      rw [← List.append_assoc, hcons, List.append_assoc]
      exact heq
    obtain ⟨zs, hz1, hz2⟩ := encodeRecords_decomp (readerStep p ck).1 rs
      ((readerStep p ck).2 ++ cs.flatten) heq2 hnl.1
      (fun l hl => (hrs l hl).1)
    have hzs : ∀ r ∈ zs, '\n' ∉ r ∧ r.length < readBufferLimit := by
      intro r hr
      exact hrs r (hz1 ▸ List.mem_append.mpr (Or.inr hr))
    have hrec := ih (readerStep p ck).2 zs
      (fun ck' hc' => hfeas ck' (List.mem_cons_of_mem ck hc')) hnl.2 hzs hz2
    rw [processChunks_cons, hrec, hz1]

lemma rbl_pos : 0 < readBufferLimit := by
  rw [readBufferLimit]
  norm_num

/-- C5 amended: for every record sequence whose serialized lines are
newline-free and shorter than the read buffer, and every feasible chunk
decomposition of the spool file, `process()` yields exactly the written
record sequence and ends with an empty carried partial, so the loop's
exit test `isDone && !lastPartial` fires as soon as the writer is done. -/
theorem spool_roundtrip (rs chunks : List (List Char))
    (hrs : ∀ r ∈ rs, '\n' ∉ r ∧ r.length < readBufferLimit)
    (hfeas : feasibleChunks chunks)
    (hjoin : chunks.flatten = encodeRecords rs) :
    spoolProcess chunks = (rs, []) ∧
      readerLoopExits true (spoolProcess chunks).2 = true := by
  have h : spoolProcess chunks = (rs, []) :=
    processChunks_spec chunks [] rs hfeas (by simp) hrs
      (by simpa using hjoin)
  refine ⟨h, ?_⟩
  rw [h]
  rfl

/-- C5 amended witness: the single record "a". -/
theorem spool_roundtrip_witness :
    spoolProcess [['a', '\n']] = ([['a']], []) ∧
      readerLoopExits true (spoolProcess [['a', '\n']]).2 = true :=
  spool_roundtrip [['a']] [['a', '\n']]
    (by
      intro r hr
      rw [List.mem_singleton] at hr
      subst hr
      exact ⟨by decide, by rw [readBufferLimit]; norm_num⟩)
    (by
      intro ck hck
      rw [List.mem_singleton] at hck
      subst hck
      exact ⟨by decide, Or.inl rfl⟩)
    rfl

/-- A record whose serialized line spans two full read-buffer chunks. -/
def bigRecord : List Char := List.replicate (2 * readBufferLimit) 'a'

/-- A feasible chunking of `encodeRecords [bigRecord]`: two exact
`readBufferLimit`-sized reads, then the final newline. -/
def bigChunks : List (List Char) :=
  [List.replicate readBufferLimit 'a', List.replicate readBufferLimit 'a',
   ['\n']]

lemma replicate_a_no_nl (n : Nat) : '\n' ∉ List.replicate n 'a' := by
  intro h
  have := List.eq_of_mem_replicate h
  exact absurd this (by decide)

lemma replicate_rbl_ne_nil : List.replicate readBufferLimit 'a' ≠ [] := by
  have h := rbl_pos
  simp only [ne_eq, List.replicate_eq_nil_iff]
  omega

lemma replicate_rbl_not_empty :
    (List.replicate readBufferLimit 'a').isEmpty = false := by
  have h := rbl_pos
  rw [List.isEmpty_eq_false_iff_exists_mem]
  exact ⟨'a', List.mem_replicate.mpr ⟨by omega, rfl⟩⟩

/-- C5 counterexample: when a chunk contains no newline while a partial
line is pending, `lastPartial = nextPartial` DROPS the pending partial
(the code never concatenates two consecutive newline-less chunks).  For
a record of 2·`readBufferLimit` characters, delivered as two full-buffer
reads followed by the final newline — a feasible run of reads —
`process()` yields a single truncated record of only `readBufferLimit`
characters instead of the record that was written. -/
theorem spool_partial_line_lost :
    bigChunks.flatten = encodeRecords [bigRecord] ∧
    feasibleChunks bigChunks ∧
    spoolProcess bigChunks = ([List.replicate readBufferLimit 'a'], []) ∧
    List.replicate readBufferLimit 'a' ≠ bigRecord := by
  have h1 : ∀ pending : List Char,
      readerStep pending (List.replicate readBufferLimit 'a') =
        ([], List.replicate readBufferLimit 'a') := by
    intro pending
    rw [readerStep, if_neg (by rw [replicate_rbl_not_empty]; simp),
      splitNl_no_newline _ (replicate_a_no_nl _)]
    rfl
  have h3 : ∀ pending : List Char, readerStep pending ['\n'] =
      ([pending], []) := by
    intro pending
    rw [readerStep, if_neg (by simp),
      show splitNl ['\n'] = [[], []] from rfl]
    show ((pending ++ []) :: [], ([[], []] : List (List Char)).getLastD []) =
      ([pending], [])
    simp [List.getLastD]
  refine ⟨?_, ?_, ?_, ?_⟩
  · show List.replicate readBufferLimit 'a' ++
      (List.replicate readBufferLimit 'a' ++ (['\n'] ++ [])) =
        encodeRecords [bigRecord]
    rw [encodeRecords_cons, encodeRecords_nil, bigRecord, two_mul,
      List.replicate_add, List.append_assoc]
    simp
  · intro ck hck
    simp only [bigChunks, List.mem_cons, List.not_mem_nil, or_false] at hck
    rcases hck with rfl | rfl | rfl
    · exact ⟨replicate_rbl_ne_nil, Or.inr (by simp)⟩
    · exact ⟨replicate_rbl_ne_nil, Or.inr (by simp)⟩
    · exact ⟨by simp, Or.inl rfl⟩
  · rw [spoolProcess,
      show bigChunks = [List.replicate readBufferLimit 'a',
        List.replicate readBufferLimit 'a', ['\n']] from rfl,
      processChunks_cons, h1, processChunks_cons, h1, processChunks_cons,
      h3, processChunks_nil]
    simp
  · intro h
    have hlen := congrArg List.length h
    simp only [List.length_replicate, bigRecord] at hlen
    have h := rbl_pos
    omega

/-! ## Sync driver: `AirbyteSourceBase.read` stream-failure budget

TypeScript source (faros-airbyte-cdk/src/sources/source-base.ts):
```
const failedStreams = [];
for (const streamName of sortedStreams) {
  try { ...drive the stream... }
  catch (e) {
    ...emit ERRORED status...
    if (config.max_stream_failures == null) { throw e; }
    failedStreams.push(streamName);
    if (config.max_stream_failures !== -1 &&
        failedStreams.length > config.max_stream_failures) { break; }
  }
}
if (failedStreams.length > 0) {
  throw new VError(`... ${JSON.stringify(failedStreams)}`);
}
```
A stream is modelled by its name and whether driving it succeeds; the
run outcome distinguishes the original error re-raised (`thrown`, tagged
with the failing stream) from the aggregate error naming the collected
failed streams. -/

/-- How `read` ends. -/
inductive ReadOutcome
  | success
  | thrown (name : String)
  | aggFailed (names : List String)
deriving DecidableEq, Repr

/-- The stream loop with the failure budget (`none` = not configured,
`some (-1)` = unlimited). -/
def readLoop (maxFail : Option Int) (failed : List String) :
    List (String × Bool) → ReadOutcome
  | [] => if failed.isEmpty then .success else .aggFailed failed
  | (name, ok) :: rest =>
    if ok then readLoop maxFail failed rest
    else
      match maxFail with
      | none => .thrown name
      | some m =>
        if m ≠ -1 ∧ ((failed.length + 1 : Nat) : Int) > m then
          .aggFailed (failed ++ [name])
        else readLoop maxFail (failed ++ [name]) rest

/-- `read` over the sorted streams. -/
def sourceRead (maxFail : Option Int) (streams : List (String × Bool)) :
    ReadOutcome :=
  readLoop maxFail [] streams

/-- The names of the failing streams, in processing order. -/
def failNames (streams : List (String × Bool)) : List String :=
  (streams.filter (fun p => !p.2)).map Prod.fst

lemma readLoop_none :
    ∀ (streams : List (String × Bool)) (acc : List String),
      readLoop none acc streams =
        match failNames streams with
        | [] => if acc.isEmpty then .success else .aggFailed acc
        | n :: _ => .thrown n := by
  intro streams
  induction streams with
  | nil =>
    intro acc
    rfl
  | cons s rest ih =>
    intro acc
    obtain ⟨name, ok⟩ := s
    cases ok with
    | true =>
      rw [readLoop]
      simp only [if_true]
      rw [ih acc]
      have : failNames ((name, true) :: rest) = failNames rest := by
        simp [failNames]
      rw [this]
    | false =>
      have : failNames ((name, false) :: rest) =
          name :: failNames rest := by
        simp [failNames]
      rw [readLoop, this]
      simp

lemma readLoop_unlimited :
    ∀ (streams : List (String × Bool)) (acc : List String),
      readLoop (some (-1)) acc streams =
        if acc ++ failNames streams = [] then .success
        else .aggFailed (acc ++ failNames streams) := by
  intro streams
  induction streams with
  | nil =>
    intro acc
    rw [readLoop]
    simp only [failNames, List.filter_nil, List.map_nil, List.append_nil]
    by_cases h : acc = []
    · simp [h]
    · simp [h, List.isEmpty_iff]
  | cons s rest ih =>
    intro acc
    obtain ⟨name, ok⟩ := s
    cases ok with
    | true =>
      rw [readLoop]
      simp only [if_true]
      rw [ih acc]
      have : failNames ((name, true) :: rest) = failNames rest := by
        simp [failNames]
      rw [this]
    | false =>
      have hf : failNames ((name, false) :: rest) =
          name :: failNames rest := by
        simp [failNames]
      rw [readLoop, hf]
      simp only [Bool.false_eq_true, if_false, ne_eq, not_true_eq_false,
        false_and, if_false]
      rw [ih (acc ++ [name])]
      simp

lemma readLoop_budget (m : Int) (hm : 0 ≤ m) :
    ∀ (streams : List (String × Bool)) (acc : List String),
      ((acc.length : Int)) ≤ m →
      readLoop (some m) acc streams =
        if acc ++ failNames streams = [] then .success
        else .aggFailed
          (acc ++ (failNames streams).take (m.toNat + 1 - acc.length)) := by
  intro streams
  induction streams with
  | nil =>
    intro acc _
    rw [readLoop]
    simp only [failNames, List.filter_nil, List.map_nil, List.append_nil,
      List.take_nil]
    by_cases h : acc = []
    · simp [h]
    · simp [h, List.isEmpty_iff]
  | cons s rest ih =>
    intro acc hacc
    obtain ⟨name, ok⟩ := s
    cases ok with
    | true =>
      rw [readLoop]
      simp only [if_true]
      rw [ih acc hacc]
      have : failNames ((name, true) :: rest) = failNames rest := by
        simp [failNames]
      rw [this]
    | false =>
      have hf : failNames ((name, false) :: rest) =
          name :: failNames rest := by
        simp [failNames]
      rw [readLoop, hf]
      simp only [Bool.false_eq_true, if_false]
      by_cases hover : m ≠ -1 ∧ ((acc.length + 1 : Nat) : Int) > m
      · rw [if_pos hover]
        have hlen : acc.length = m.toNat := by omega
        have htake : (name :: failNames rest).take
            (m.toNat + 1 - acc.length) = [name] := by
          rw [hlen]
          simp
        rw [htake]
        rw [if_neg (by simp)]
      · rw [if_neg hover]
        have hacc' : (((acc ++ [name]).length : Nat) : Int) ≤ m := by
          simp only [List.length_append, List.length_cons, List.length_nil]
          omega
        rw [ih (acc ++ [name]) hacc']
        have htake : (name :: failNames rest).take
            (m.toNat + 1 - acc.length) =
            name :: (failNames rest).take
              (m.toNat + 1 - (acc ++ [name]).length) := by
          have h1 : m.toNat + 1 - acc.length =
              (m.toNat + 1 - (acc ++ [name]).length) + 1 := by
            simp only [List.length_append, List.length_cons, List.length_nil]
            omega
          rw [h1]
          simp
        rw [htake]
        rw [if_neg (by simp), if_neg (by simp)]
        simp

/-- C8: when `max_stream_failures` is not configured, the first stream
failure is re-raised immediately; when configured, failing streams are
recorded and processing continues while the number of failures does not
exceed the budget (−1 = unlimited; processing stops once it would), and
after the loop `read` fails with the collected failed stream names
whenever any stream failed. -/
theorem sourceRead_budget_spec (streams : List (String × Bool)) :
    (sourceRead none streams =
      match failNames streams with
      | [] => .success
      | n :: _ => .thrown n) ∧
    (sourceRead (some (-1)) streams =
      if failNames streams = [] then .success
      else .aggFailed (failNames streams)) ∧
    (∀ m : Int, 0 ≤ m →
      sourceRead (some m) streams =
        if failNames streams = [] then .success
        else .aggFailed ((failNames streams).take (m.toNat + 1))) := by
  refine ⟨?_, ?_, ?_⟩
  · rw [sourceRead, readLoop_none]
    cases failNames streams <;> rfl
  · rw [sourceRead, readLoop_unlimited]
    simp
  · intro m hm
    rw [sourceRead, readLoop_budget m hm streams [] (by simpa using hm)]
    simp

/-- C8 witness: budget 0, stream A fails, stream B would follow — the
run stops and aggregates `["A"]`. -/
theorem sourceRead_budget_spec_witness :
    sourceRead (some 0) [("A", false), ("B", true)] =
      if failNames [("A", false), ("B", true)] = [] then .success
      else .aggFailed
        ((failNames [("A", false), ("B", true)]).take ((0 : Int).toNat + 1)) :=
  (sourceRead_budget_spec [("A", false), ("B", true)]).2.2 0 (by decide)

/-! ## Sync driver: `AirbyteSourceBase.doReadStream`

TypeScript source (faros-airbyte-cdk/src/sources/source-base.ts,
doReadStream / checkpointState / errorState), composed with the Events
stream's `getUpdatedState` (`{cutoff: max(current ?? 0, epoch(record))}`).

The model tracks a single stream `S`.  A record is its cursor epoch in
milliseconds.  The stream state is `Option Nat` (`none` = `{}`); the
connector-state entry for `S` is `Option (Option Nat)` (`none` = key
absent).  Both `checkpointState` and `errorState` assign
`connectorState[streamName] = streamState` and emit a message carrying
the whole map, so the entry after the run is determined by the last
state-bearing message (or the initial entry when none was emitted).
A slice is modelled by its records in order, the JS truthiness of the
slice value (`ident`), and how its record iterator ends: normally, with
a `NonFatalError`, or with any other error. -/

/-- How a slice's record iterator terminates. -/
inductive SliceEnd
  | done
  | nonFatal
  | fatal
deriving DecidableEq, Repr

/-- One stream slice. -/
structure SliceData where
  ident : Bool
  records : List Nat
  ending : SliceEnd
deriving DecidableEq, Repr

/-- Messages `doReadStream` emits for stream `S` (record cursor epochs;
state payloads are the stream state written into the connector map). -/
inductive SyncMsg
  | record (cursor : Nat)
  | checkpoint (st : Option Nat)
  | errorState (st : Option Nat)
deriving DecidableEq, Repr

/-- The stream-state payload of a state-bearing message. -/
def statePayload : SyncMsg → Option (Option Nat)
  | .record _ => none
  | .checkpoint st => some st
  | .errorState st => some st

/-- The connector-state entry for `S` after the emitted messages:
every state-bearing message coincides with an assignment
`connectorState[S] = streamState`. -/
def connAfter (init : Option (Option Nat)) (msgs : List SyncMsg) :
    Option (Option Nat) :=
  match (msgs.filterMap statePayload).getLast? with
  | some st => some st
  | none => init

/-- Events' `getUpdatedState`:
`{cutoff: max(currentStreamState?.cutoff ?? 0, epoch(record[cursorField]))}`. -/
def getUpdatedState (cur : Option Nat) (r : Nat) : Option Nat :=
  some (max (cur.getD 0) r)

/-- The per-slice record loop: emit the record, update the state (unless
backfilling), and checkpoint after every `ci` records of the slice
(`ci = 0` disables interval checkpoints — `if (checkpointInterval && …)`).
`k` is the number of slice records already processed. -/
def drRecords (backfill : Bool) (ci : Nat) :
    Option Nat → Nat → List Nat → List SyncMsg × Option Nat
  | st, _, [] => ([], st)
  | st, k, r :: rs =>
    if backfill then
      let rest := drRecords backfill ci st (k + 1) rs
      (.record r :: rest.1, rest.2)
    else
      let st' := getUpdatedState st r
      let rest := drRecords backfill ci st' (k + 1) rs
      if ci ≠ 0 ∧ (k + 1) % ci = 0 then
        (.record r :: .checkpoint st' :: rest.1, rest.2)
      else (.record r :: rest.1, rest.2)

/-- The slice loop of `doReadStream`: end-of-slice checkpoint on normal
completion (unless backfilling), `errorState` and continue on
`NonFatalError`, re-raise on a fatal error without slice identity or
without a configured `max_slice_failures`, otherwise record the failed
slice, emit `errorState`, and stop once the budget is exceeded
(−1 = unlimited).  Returns (messages, failed-slice count, thrown?). -/
def drGo (backfill : Bool) (msf : Option Int) (ci : Nat) :
    Option Nat → Nat → List SliceData → List SyncMsg × Nat × Bool
  | _, fails, [] => ([], fails, false)
  | st, fails, s :: rest =>
    let rcs := drRecords backfill ci st 0 s.records
    match s.ending with
    | .done =>
      let next := drGo backfill msf ci rcs.2 fails rest
      (rcs.1 ++ (if backfill then [] else [.checkpoint rcs.2]) ++ next.1,
       next.2)
    | .nonFatal =>
      let next := drGo backfill msf ci rcs.2 fails rest
      (rcs.1 ++ [.errorState rcs.2] ++ next.1, next.2)
    | .fatal =>
      match msf with
      | none => (rcs.1, fails, true)
      | some m =>
        if !s.ident then (rcs.1, fails, true)
        else if m ≠ -1 ∧ ((fails + 1 : Nat) : Int) > m then
          (rcs.1 ++ [.errorState rcs.2], fails + 1, false)
        else
          let next := drGo backfill msf ci rcs.2 (fails + 1) rest
          (rcs.1 ++ [.errorState rcs.2] ++ next.1, next.2)

/-- How `doReadStream` terminates. -/
inductive DROutcome
  | ok
  | errThrown
  | errAgg
deriving DecidableEq, Repr

/-- `doReadStream` for one stream: initial stream state from the
connector state unless backfilling, the slice loop, then the aggregate
slice-failure error.  Returns (messages, final connector-state entry
for `S`, outcome). -/
def doReadStream (backfill : Bool) (msf : Option Int) (ci : Nat)
    (init : Option (Option Nat)) (slices : List SliceData) :
    List SyncMsg × Option (Option Nat) × DROutcome :=
  let st0 : Option Nat := if backfill then none else init.join
  let g := drGo backfill msf ci st0 0 slices
  (g.1, connAfter init g.1,
   if g.2.2 then .errThrown else if g.2.1 > 0 then .errAgg else .ok)

/-- The stream state after folding the emitted records over
`getUpdatedState` from a starting state. -/
def foldState (st : Option Nat) (msgs : List SyncMsg) : Option Nat :=
  msgs.foldl
    (fun s m => match m with | .record r => getUpdatedState s r | _ => s) st

/-- Message lists produced by the write-after-emit state machine: every
state-bearing message carries exactly the state folded from the records
emitted before it. -/
inductive StateProv : Option Nat → List SyncMsg → Prop
  | nil (st : Option Nat) : StateProv st []
  | rcd (st : Option Nat) (r : Nat) (rest : List SyncMsg) :
      StateProv (getUpdatedState st r) rest →
      StateProv st (.record r :: rest)
  | ck (st : Option Nat) (rest : List SyncMsg) :
      StateProv st rest → StateProv st (.checkpoint st :: rest)
  | err (st : Option Nat) (rest : List SyncMsg) :
      StateProv st rest → StateProv st (.errorState st :: rest)

lemma foldState_nil (st : Option Nat) : foldState st [] = st := rfl

lemma foldState_record (st : Option Nat) (r : Nat) (rest : List SyncMsg) :
    foldState st (.record r :: rest) = foldState (getUpdatedState st r) rest :=
  rfl

lemma foldState_checkpoint (st st' : Option Nat) (rest : List SyncMsg) :
    foldState st (.checkpoint st' :: rest) = foldState st rest := rfl

lemma foldState_errorState (st st' : Option Nat) (rest : List SyncMsg) :
    foldState st (.errorState st' :: rest) = foldState st rest := rfl

lemma StateProv.append {st : Option Nat} {a : List SyncMsg}
    (ha : StateProv st a) :
    ∀ {b : List SyncMsg}, StateProv (foldState st a) b →
      StateProv st (a ++ b) := by
  induction ha with
  | nil st =>
    intro b hb
    simpa using hb
  | rcd st r rest _ ih =>
    intro b hb
    rw [foldState_record] at hb
    exact StateProv.rcd st r (rest ++ b) (ih hb)
  | ck st rest _ ih =>
    intro b hb
    rw [foldState_checkpoint] at hb
    exact StateProv.ck st (rest ++ b) (ih hb)
  | err st rest _ ih =>
    intro b hb
    rw [foldState_errorState] at hb
    exact StateProv.err st (rest ++ b) (ih hb)

lemma drRecords_prov (ci : Nat) :
    ∀ (rs : List Nat) (st : Option Nat) (k : Nat),
      StateProv st (drRecords false ci st k rs).1 ∧
        (drRecords false ci st k rs).2 =
          foldState st (drRecords false ci st k rs).1 := by
  intro rs
  induction rs with
  | nil =>
    intro st k
    exact ⟨StateProv.nil st, rfl⟩
  | cons r rs ih =>
    intro st k
    rw [drRecords]
    simp only [Bool.false_eq_true, if_false]
    obtain ⟨ihp, ihf⟩ := ih (getUpdatedState st r) (k + 1)
    by_cases hc : ci ≠ 0 ∧ (k + 1) % ci = 0
    · rw [if_pos hc]
      refine ⟨?_, ?_⟩
      · exact StateProv.rcd st r _ (StateProv.ck _ _ ihp)
      · rw [ihf]
        rfl
    · rw [if_neg hc]
      refine ⟨?_, ?_⟩
      · exact StateProv.rcd st r _ ihp
      · rw [ihf]
        rfl

lemma drGo_nil (b : Bool) (msf : Option Int) (ci : Nat) (st : Option Nat)
    (fails : Nat) : drGo b msf ci st fails [] = ([], fails, false) := rfl

lemma drGo_cons_done (b : Bool) (msf : Option Int) (ci : Nat)
    (st : Option Nat) (fails : Nat) (sid : Bool) (srecs : List Nat)
    (rest : List SliceData) :
    drGo b msf ci st fails (⟨sid, srecs, .done⟩ :: rest) =
      ((drRecords b ci st 0 srecs).1 ++
        (if b then [] else [.checkpoint (drRecords b ci st 0 srecs).2]) ++
        (drGo b msf ci (drRecords b ci st 0 srecs).2 fails rest).1,
       (drGo b msf ci (drRecords b ci st 0 srecs).2 fails rest).2) := rfl

lemma drGo_cons_nonFatal (b : Bool) (msf : Option Int) (ci : Nat)
    (st : Option Nat) (fails : Nat) (sid : Bool) (srecs : List Nat)
    (rest : List SliceData) :
    drGo b msf ci st fails (⟨sid, srecs, .nonFatal⟩ :: rest) =
      ((drRecords b ci st 0 srecs).1 ++
        [.errorState (drRecords b ci st 0 srecs).2] ++
        (drGo b msf ci (drRecords b ci st 0 srecs).2 fails rest).1,
       (drGo b msf ci (drRecords b ci st 0 srecs).2 fails rest).2) := rfl

lemma drGo_cons_fatal_none (b : Bool) (ci : Nat) (st : Option Nat)
    (fails : Nat) (sid : Bool) (srecs : List Nat) (rest : List SliceData) :
    drGo b none ci st fails (⟨sid, srecs, .fatal⟩ :: rest) =
      ((drRecords b ci st 0 srecs).1, fails, true) := rfl

lemma drGo_cons_fatal_some (b : Bool) (ci : Nat) (st : Option Nat)
    (fails : Nat) (m : Int) (sid : Bool) (srecs : List Nat)
    (rest : List SliceData) :
    drGo b (some m) ci st fails (⟨sid, srecs, .fatal⟩ :: rest) =
      (if !sid then ((drRecords b ci st 0 srecs).1, fails, true)
       else if m ≠ -1 ∧ ((fails + 1 : Nat) : Int) > m then
         ((drRecords b ci st 0 srecs).1 ++
           [.errorState (drRecords b ci st 0 srecs).2], fails + 1, false)
       else
         ((drRecords b ci st 0 srecs).1 ++
           [.errorState (drRecords b ci st 0 srecs).2] ++
           (drGo b (some m) ci (drRecords b ci st 0 srecs).2 (fails + 1)
             rest).1,
          (drGo b (some m) ci (drRecords b ci st 0 srecs).2 (fails + 1)
            rest).2)) := rfl

lemma drGo_prov (msf : Option Int) (ci : Nat) :
    ∀ (slices : List SliceData) (st : Option Nat) (fails : Nat),
      StateProv st (drGo false msf ci st fails slices).1 := by
  intro slices
  induction slices with
  | nil =>
    intro st fails
    exact StateProv.nil st
  | cons s rest ih =>
    intro st fails
    obtain ⟨sid, srecs, send⟩ := s
    obtain ⟨hp, hf⟩ := drRecords_prov ci srecs st 0
    cases send with
    | done =>
      rw [drGo_cons_done]
      simp only [Bool.false_eq_true, if_false]
      rw [List.append_assoc, List.singleton_append]
      exact hp.append (hf ▸ StateProv.ck _ _ (ih _ fails))
    | nonFatal =>
      rw [drGo_cons_nonFatal]
      rw [List.append_assoc, List.singleton_append]
      exact hp.append (hf ▸ StateProv.err _ _ (ih _ fails))
    | fatal =>
      cases msf with
      | none =>
        rw [drGo_cons_fatal_none]
        exact hp
      | some m =>
        rw [drGo_cons_fatal_some]
        by_cases hid : !sid
        · rw [if_pos hid]
          exact hp
        · rw [if_neg hid]
          by_cases hover : m ≠ -1 ∧ ((fails + 1 : Nat) : Int) > m
          · rw [if_pos hover]
            exact hp.append (hf ▸ StateProv.err _ _ (StateProv.nil _))
          · rw [if_neg hover]
            rw [List.append_assoc, List.singleton_append]
            exact hp.append (hf ▸ StateProv.err _ _ (ih _ (fails + 1)))

lemma StateProv.payload_origin {st0 : Option Nat} {msgs : List SyncMsg}
    (h : StateProv st0 msgs) :
    ∀ (i : Nat) (m : SyncMsg) (st : Option Nat),
      msgs[i]? = some m → statePayload m = some st →
      st = st0 ∨ ∃ j < i, ∃ r, msgs[j]? = some (.record r) ∧ st = some r := by
  induction h with
  | nil st =>
    intro i m st hi
    simp at hi
  | rcd st r rest _ ih =>
    intro i m stp hi hpay
    cases i with
    | zero =>
      simp only [List.getElem?_cons_zero, Option.some.injEq] at hi
      rw [← hi] at hpay
      simp [statePayload] at hpay
    | succ i =>
      rw [List.getElem?_cons_succ] at hi
      rcases ih i m stp hi hpay with heq | ⟨j, hj, r', hjr, hst⟩
      · rcases max_choice (st.getD 0) r with hmax | hmax
        · cases hst0 : st with
          | some v =>
            left
            rw [hst0] at hmax
            simp only [Option.getD_some] at hmax
            rw [heq, hst0]
            simp only [getUpdatedState, Option.getD_some, hmax]
          | none =>
            right
            refine ⟨0, Nat.succ_pos i, r, by simp, ?_⟩
            rw [hst0] at hmax
            simp only [Option.getD_none] at hmax
            have hr : r = 0 := Nat.le_zero.mp (hmax ▸ Nat.le_max_right 0 r)
            rw [heq, hst0]
            simp [getUpdatedState, hr]
        · right
          refine ⟨0, Nat.succ_pos i, r, by simp, ?_⟩
          rw [heq]
          simp only [getUpdatedState, hmax]
      · exact Or.inr ⟨j + 1, Nat.succ_lt_succ hj, r',
          by rw [List.getElem?_cons_succ]; exact hjr, hst⟩
  | ck st rest _ ih =>
    intro i m stp hi hpay
    cases i with
    | zero =>
      simp only [List.getElem?_cons_zero, Option.some.injEq] at hi
      rw [← hi] at hpay
      simp only [statePayload, Option.some.injEq] at hpay
      exact Or.inl hpay.symm
    | succ i =>
      rw [List.getElem?_cons_succ] at hi
      rcases ih i m stp hi hpay with heq | ⟨j, hj, r', hjr, hst⟩
      · exact Or.inl heq
      · exact Or.inr ⟨j + 1, Nat.succ_lt_succ hj, r',
          by rw [List.getElem?_cons_succ]; exact hjr, hst⟩
  | err st rest _ ih =>
    intro i m stp hi hpay
    cases i with
    | zero =>
      simp only [List.getElem?_cons_zero, Option.some.injEq] at hi
      rw [← hi] at hpay
      simp only [statePayload, Option.some.injEq] at hpay
      exact Or.inl hpay.symm
    | succ i =>
      rw [List.getElem?_cons_succ] at hi
      rcases ih i m stp hi hpay with heq | ⟨j, hj, r', hjr, hst⟩
      · exact Or.inl heq
      · exact Or.inr ⟨j + 1, Nat.succ_lt_succ hj, r',
          by rw [List.getElem?_cons_succ]; exact hjr, hst⟩

/-- Number of state-bearing messages (checkpoint or error state). -/
def stateCount (msgs : List SyncMsg) : Nat :=
  (msgs.filter (fun m => (statePayload m).isSome)).length

lemma stateCount_record_cons (r : Nat) (l : List SyncMsg) :
    stateCount (.record r :: l) = stateCount l := by
  simp [stateCount, statePayload]

lemma stateCount_checkpoint_cons (st : Option Nat) (l : List SyncMsg) :
    stateCount (.checkpoint st :: l) = stateCount l + 1 := by
  simp [stateCount, statePayload]

lemma stateCount_append (a b : List SyncMsg) :
    stateCount (a ++ b) = stateCount a + stateCount b := by
  simp [stateCount]

lemma drRecords_count_zero :
    ∀ (rs : List Nat) (st : Option Nat) (k : Nat),
      stateCount (drRecords false 0 st k rs).1 = 0 := by
  intro rs
  induction rs with
  | nil =>
    intro st k
    rfl
  | cons r rs ih =>
    intro st k
    rw [drRecords]
    simp only [Bool.false_eq_true, if_false, ne_eq, not_true_eq_false,
      false_and, if_false]
    rw [stateCount_record_cons]
    exact ih _ _

lemma drRecords_count (ci : Nat) (hci : ci ≠ 0) :
    ∀ (rs : List Nat) (st : Option Nat) (k : Nat),
      stateCount (drRecords false ci st k rs).1 =
        (k + rs.length) / ci - k / ci := by
  intro rs
  induction rs with
  | nil =>
    intro st k
    simp [drRecords, stateCount]
  | cons r rs ih =>
    intro st k
    rw [drRecords]
    simp only [Bool.false_eq_true, if_false]
    have hmono : (k + 1) / ci ≤ (k + 1 + rs.length) / ci :=
      Nat.div_le_div_right (by omega)
    by_cases hc : ci ≠ 0 ∧ (k + 1) % ci = 0
    · rw [if_pos hc]
      rw [stateCount_record_cons, stateCount_checkpoint_cons, ih _ (k + 1)]
      have hdiv : (k + 1) / ci = k / ci + 1 := by
        rw [Nat.succ_div, if_pos (Nat.dvd_iff_mod_eq_zero.mpr hc.2)]
      simp only [List.length_cons]
      have hre : k + (rs.length + 1) = k + 1 + rs.length := by omega
      rw [hre]
      omega
    · rw [if_neg hc]
      rw [stateCount_record_cons, ih _ (k + 1)]
      have hndvd : ¬ ci ∣ (k + 1) := by
        intro hd
        exact hc ⟨hci, Nat.dvd_iff_mod_eq_zero.mp hd⟩
      have hdiv : (k + 1) / ci = k / ci := by
        rw [Nat.succ_div, if_neg hndvd]
        omega
      simp only [List.length_cons]
      have hre : k + (rs.length + 1) = k + 1 + rs.length := by omega
      rw [hre]
      omega

lemma drGo_count (msf : Option Int) (ci : Nat) :
    ∀ (slices : List SliceData) (st : Option Nat) (fails : Nat),
      (∀ s ∈ slices, s.ending = .done) →
      stateCount (drGo false msf ci st fails slices).1 =
        (slices.map (fun s =>
          if ci = 0 then 0 else s.records.length / ci)).sum +
          slices.length := by
  intro slices
  induction slices with
  | nil =>
    intro st fails _
    rfl
  | cons s rest ih =>
    intro st fails hdone
    obtain ⟨sid, srecs, send⟩ := s
    have hend : send = .done := hdone _ (List.mem_cons_self _ _)
    subst hend
    rw [drGo_cons_done]
    simp only [Bool.false_eq_true, if_false]
    rw [stateCount_append, stateCount_append,
      ih _ fails (fun s hs => hdone s (List.mem_cons_of_mem _ hs))]
    have hcheck : stateCount [SyncMsg.checkpoint
        (drRecords false ci st 0 srecs).2] = 1 := rfl
    rw [hcheck]
    by_cases hci : ci = 0
    · subst hci
      rw [drRecords_count_zero]
      simp only [List.map_cons, List.sum_cons, List.length_cons,
        eq_self_iff_true, if_true]
      omega
    · rw [drRecords_count ci hci srecs st 0]
      simp only [List.map_cons, List.sum_cons, if_neg hci, List.length_cons]
      simp only [Nat.zero_add, Nat.zero_div, Nat.sub_zero]
      omega

lemma doReadStream_msgs (msf : Option Int) (ci : Nat)
    (init : Option (Option Nat)) (slices : List SliceData) :
    (doReadStream false msf ci init slices).1 =
      (drGo false msf ci init.join 0 slices).1 := rfl

/-- C3 amended: every state-bearing message's payload is either the
stream's initial state (`connectorState[S] ?? {}` at the start of the
read) or the state produced by some earlier-emitted RECORD (whose cursor
epoch it equals); and in an error-free run the number of state messages
is exactly `⌊n_slice / checkpointInterval⌋` per slice (0 when the
interval is 0) plus one at the end of each slice. -/
theorem doRead_checkpoint_spec (msf : Option Int) (ci : Nat)
    (init : Option (Option Nat)) (slices : List SliceData) :
    (∀ (i : Nat) (m : SyncMsg) (st : Option Nat),
      (doReadStream false msf ci init slices).1[i]? = some m →
      statePayload m = some st →
      st = init.join ∨ ∃ j < i, ∃ r,
        (doReadStream false msf ci init slices).1[j]? =
          some (.record r) ∧ st = some r) ∧
    ((∀ s ∈ slices, s.ending = .done) →
      stateCount (doReadStream false msf ci init slices).1 =
        (slices.map (fun s =>
          if ci = 0 then 0 else s.records.length / ci)).sum +
          slices.length) := by
  constructor
  · intro i m st hi hpay
    rw [doReadStream_msgs] at hi ⊢
    exact (drGo_prov msf ci slices init.join 0).payload_origin i m st hi hpay
  · intro hdone
    rw [doReadStream_msgs]
    exact drGo_count msf ci slices init.join 0 hdone

/-- C3 amended witness: one slice with the single record 7 and
checkpoint interval 1 — one interval checkpoint plus the slice-end
checkpoint. -/
theorem doRead_checkpoint_spec_witness :
    stateCount (doReadStream false none 1 none [⟨true, [7], .done⟩]).1 =
      (([⟨true, [7], .done⟩] : List SliceData).map (fun s =>
        if (1 : Nat) = 0 then 0 else s.records.length / 1)).sum +
        ([⟨true, [7], .done⟩] : List SliceData).length :=
  (doRead_checkpoint_spec none 1 none [⟨true, [7], .done⟩]).2 (by decide)

/-- C3 counterexample: with initial state `{cutoff: 5}` and an empty
slice, the end-of-slice checkpoint emits a STATE with `cutoff = 5`
although NO RECORD was emitted in the whole message sequence — the
claimed "preceding RECORD whose cursor value equals the cutoff" does
not exist. -/
theorem doRead_state_without_record :
    doReadStream false none 100000 (some (some 5)) [⟨true, [], .done⟩] =
      ([.checkpoint (some 5)], some (some 5), .ok) ∧
    ((doReadStream false none 100000 (some (some 5))
      [⟨true, [], .done⟩]).1.all fun m => (statePayload m).isSome) = true :=
  ⟨rfl, rfl⟩

/-- C9: the code as written violates backfill invariance.  With
`backfill = true`, initial connector state `{S: {cutoff: 5}}` and a
slice raising a `NonFatalError`, `errorState` assigns
`connectorState[S] = streamState` (the empty backfill stream state) and
emits a state-bearing message, so the connector state at the end of the
run differs from the state at the start — contradicting both the claim
and the code's own log line "Stream state will be ignored and left
unmodified." -/
theorem backfill_state_mutation_bug :
    doReadStream true none 100000 (some (some 5)) [⟨true, [], .nonFatal⟩] =
      ([.errorState none], some none, .ok) ∧
    (doReadStream true none 100000 (some (some 5))
      [⟨true, [], .nonFatal⟩]).2.1 ≠ some (some 5) :=
  ⟨rfl, by decide⟩
